import Mathlib

set_option linter.unusedSectionVars false
set_option linter.unusedVariables false

/-!
Verification of the NavX Multi-Map Pathfinding Engine against its design
specification.

The engine (graph model, single-map Dijkstra router, gateway resolver, global
graph composer, cross-map router) lives in `src/lib/pathfinder.ts`, which is not
part of the provided sources; it is modelled here from the specification
(definitions whose doc comments start with "Modelled from the spec:").  The UI
and API callers (`AIChatbot.tsx`, `navigate/page.tsx`, `api/chat/route.ts`) are
embedded from their TypeScript sources.

Numeric edge weights (TypeScript `number`s, floats ≥ 0) are modelled as
rationals; node coordinates are carried but never interpreted (spec §6: "the
engine never interprets coordinates, only node/edge identities and weights").
-/

namespace NavX

/-- Node type tag: one of NORMAL, ROOM, GATEWAY (spec §3). -/
inductive NodeType where
  | NORMAL
  | ROOM
  | GATEWAY
deriving DecidableEq

/-- Gateway configuration: the (map, node) pair this gateway teleports to (spec §3). -/
structure GatewayConfig where
  targetMapId : String
  targetNodeId : String
deriving DecidableEq

/-- A map node (spec §3).  `gatewayConfig` is an optional field, present on
GATEWAY nodes; `category` is the optional chatbot-matching tag. -/
structure Node where
  id : String
  x : ℚ
  y : ℚ
  type : NodeType
  name : String
  category : Option String := none
  gatewayConfig : Option GatewayConfig := none
deriving DecidableEq

/-- A weighted adjacency edge, stored per source node (spec §3). -/
structure Edge where
  targetNodeId : String
  weight : ℚ
deriving DecidableEq

/-- One map's graph: id, nodes, and adjacency list (spec §3). -/
structure MapGraph where
  mapId : String
  nodes : List Node
  adjacency : List (String × List Edge)
deriving DecidableEq

/-- The ids of a map's nodes, in node order. -/
def MapGraph.nodeIds (g : MapGraph) : List String := g.nodes.map (·.id)

/-- Modelled from the spec: `neighbors(nodeId)` of §4.1 — the node's outgoing
edge sequence, the empty sequence if the node has no entry (no error). -/
def MapGraph.neighbors (g : MapGraph) (nodeId : String) : List Edge :=
  match g.adjacency.find? (fun p => p.1 == nodeId) with
  | none => []
  | some p => p.2

/-- Graph-construction error taxonomy (spec §7): only duplicate node ids are
fatal for one map's construction. -/
inductive BuildError where
  | invalidGraph
deriving DecidableEq

/-- Modelled from the spec: `build(rawNodes, rawAdjacency)` of §4.1, the Map
Graph constructor of the missing `src/lib/pathfinder.ts` core.  Fails with
`InvalidGraph` exactly when `rawNodes` contains duplicate ids; otherwise
drops (non-fatally) every adjacency edge whose `targetNodeId` is not a node id
of the same map, and keeps everything else verbatim. -/
def build (mapId : String) (rawNodes : List Node)
    (rawAdjacency : List (String × List Edge)) : Except BuildError MapGraph :=
  let ids := rawNodes.map (·.id)
  if ids.Nodup then
    .ok { mapId := mapId, nodes := rawNodes,
          adjacency := rawAdjacency.map
            (fun p => (p.1, p.2.filter (fun e => e.targetNodeId ∈ ids))) }
  else
    .error .invalidGraph

section Dijkstra

variable {α : Type} [DecidableEq α]

/-- Tentative-distance table of the Dijkstra priority queue: each entry is a
node, its accumulated distance, and the path from the source realising it. -/
abbrev Tent (α : Type) := List (α × ℚ × List α)

/-- Dijkstra working state: settled nodes and the tentative table. -/
structure DState (α : Type) where
  visited : List α
  tent : Tent α

/-- Look a node up in the tentative table. -/
def tentLookup : Tent α → α → Option (ℚ × List α)
  | [], _ => none
  | e :: es, v => if e.1 = v then some e.2 else tentLookup es v

/-- Overwrite (or append) a node's tentative entry. -/
def tentSet : Tent α → α → ℚ → List α → Tent α
  | [], v, d, p => [(v, d, p)]
  | e :: es, v, d, p => if e.1 = v then (v, d, p) :: es else e :: tentSet es v d p

/-- Relax one outgoing edge `vw` of a node settled at distance `du` via path
`pu`: skip settled targets, insert unseen targets, lower existing entries on a
strictly smaller accumulated distance. -/
def relaxOne (visited : List α) (du : ℚ) (pu : List α) (t : Tent α) (vw : α × ℚ) :
    Tent α :=
  if vw.1 ∈ visited then t
  else
    match tentLookup t vw.1 with
    | none => t ++ [(vw.1, du + vw.2, pu ++ [vw.1])]
    | some (dv, _) =>
        if du + vw.2 < dv then tentSet t vw.1 (du + vw.2) (pu ++ [vw.1]) else t

/-- Priority order of the queue: strictly smaller accumulated distance first,
ties broken by the supplied node-id order (spec §4.2). -/
def better (tie : α → α → Bool) (x y : α × ℚ × List α) : Bool :=
  decide (x.2.1 < y.2.1) || (decide (x.2.1 = y.2.1) && tie x.1 y.1)

/-- Extract the highest-priority unsettled entry of the tentative table, if any. -/
def extractMin (tie : α → α → Bool) (visited : List α) : Tent α →
    Option (α × ℚ × List α)
  | [] => none
  | e :: es =>
    let rest := extractMin tie visited es
    if e.1 ∈ visited then rest
    else
      match rest with
      | none => some e
      | some b => if better tie e b then some e else some b

/-- Settle the extracted node `u` and relax all its outgoing edges. -/
def settle (adj : α → List (α × ℚ)) (s : DState α) (u : α × ℚ × List α) : DState α :=
  { visited := u.1 :: s.visited,
    tent := (adj u.1).foldl (relaxOne (u.1 :: s.visited) u.2.1 u.2.2) s.tent }

/-- The Dijkstra main loop, fuelled: repeatedly extract the minimum and settle
it until the queue holds no unsettled node. -/
def dloop (adj : α → List (α × ℚ)) (tie : α → α → Bool) : Nat → DState α → DState α
  | 0, s => s
  | Nat.succ n, s =>
    match extractMin tie s.visited s.tent with
    | none => s
    | some u => dloop adj tie n (settle adj s u)

/-- The single-router result (spec §4.2): success flag, the waypoint path, and
the accumulated total weight. -/
structure SPResult (α : Type) where
  success : Bool
  path : List α
  totalWeight : ℚ
deriving DecidableEq

/-- The failure result: no exception, just `success = false` (spec §4.2/§7). -/
def failSP {α : Type} : SPResult α := { success := false, path := [], totalWeight := 0 }

/-- Modelled from the spec: the shared shortest-path procedure of §4.2 —
"classic Dijkstra with a priority queue keyed by accumulated distance;
tie-break on node id for determinism".  Returns `success = false` when either
endpoint is absent (a normal no-route outcome, never an exception), succeeds
trivially with a single-waypoint zero-distance path when source equals
destination, and otherwise runs the fuelled Dijkstra loop to completion. -/
def dijkstraShortest (nodes : List α) (adj : α → List (α × ℚ)) (tie : α → α → Bool)
    (src dst : α) : SPResult α :=
  if src ∈ nodes ∧ dst ∈ nodes then
    if src = dst then { success := true, path := [src], totalWeight := 0 }
    else
      let final := dloop adj tie (nodes.length + 1) ⟨[], [(src, 0, [src])]⟩
      match tentLookup final.tent dst with
      | none => failSP
      | some (d, p) => { success := true, path := p, totalWeight := d }
  else failSP

/-- A weighted path of the adjacency relation: `PathW adj a b p d` means `p`
lists the nodes of a walk from `a` to `b` whose chosen edge weights sum to `d`. -/
inductive PathW (adj : α → List (α × ℚ)) : α → α → List α → ℚ → Prop where
  | single (a : α) : PathW adj a a [a] 0
  | snoc {a b c : α} {p : List α} {d w : ℚ} :
      PathW adj a b p d → (c, w) ∈ adj b → PathW adj a c (p ++ [c]) (d + w)

end Dijkstra

/-- Adjacency function of one map graph. -/
def mapAdj (g : MapGraph) : String → List (String × ℚ) :=
  fun u => (g.neighbors u).map (fun e => (e.targetNodeId, e.weight))

/-- Structural lexicographic order on character lists (by code point), used
for the deterministic node-id tie-breaks of §4.2/§4.4. -/
def lexLt : List Char → List Char → Bool
  | [], [] => false
  | [], _ :: _ => true
  | _ :: _, [] => false
  | a :: as, b :: bs =>
    if a.toNat < b.toNat then true
    else if b.toNat < a.toNat then false
    else lexLt as bs

/-- Lexicographic tie-break on node ids (spec §4.2). -/
def strTie (a b : String) : Bool := lexLt a.data b.data

/-- Modelled from the spec: `shortestPath(graph, sourceId, destId)` of §4.2,
the Single-Map Router — classic Dijkstra over one map's adjacency. -/
def shortestPath (g : MapGraph) (sourceId destId : String) : SPResult String :=
  dijkstraShortest g.nodeIds (mapAdj g) strTie sourceId destId

/-- Find a map graph by id in the supplied map set. -/
def lookupMap (maps : List MapGraph) (mapId : String) : Option MapGraph :=
  maps.find? (fun g => g.mapId == mapId)

/-- Modelled from the spec: `resolve(node, allMapGraphs)` of §4.3, the Gateway
Resolver — returns the target pair only when the supplied map set contains
`targetMapId` and that map contains `targetNodeId`; otherwise none (the gateway
is inert, never throws). -/
def resolve (node : Node) (maps : List MapGraph) : Option (String × String) :=
  match node.gatewayConfig with
  | none => none
  | some cfg =>
    match lookupMap maps cfg.targetMapId with
    | none => none
    | some g =>
        if cfg.targetNodeId ∈ g.nodeIds then some (cfg.targetMapId, cfg.targetNodeId)
        else none

/-- Modelled from the spec: the fixed gateway transition cost of §3/§4.4 ("a
fixed small transition cost (conceptually one hop)"); §9 leaves the constant
open and asks for a documented choice, which we fix at 1. -/
def gatewayTransitionWeight : ℚ := 1

/-- Composite node identity of the Global Graph (spec §3): (mapId, nodeId). -/
abbrev GId := String × String

/-- Node list of the composed Global Graph: the union of all maps' nodes under
composite identities. -/
def globalNodes (maps : List MapGraph) : List GId :=
  maps.flatMap (fun g => g.nodes.map (fun n => (g.mapId, n.id)))

/-- Modelled from the spec: the adjacency of `compose(allMapGraphs)` of §4.4 —
intra-map edges copied verbatim under composite identities, plus, for each
GATEWAY node whose target resolves, one directed gateway edge of the fixed
transition weight; an unresolved gateway contributes no edge. -/
def globalAdj (maps : List MapGraph) : GId → List (GId × ℚ) :=
  fun p =>
    match lookupMap maps p.1 with
    | none => []
    | some g =>
      let intra := (g.neighbors p.2).map (fun e => ((p.1, e.targetNodeId), e.weight))
      let gw :=
        match g.nodes.find? (fun n => n.id == p.2) with
        | none => []
        | some n =>
          if n.type = NodeType.GATEWAY then
            match resolve n maps with
            | none => []
            | some t => [(t, gatewayTransitionWeight)]
          else []
      intra ++ gw

/-- The edge relation of the composed Global Graph. -/
abbrev GEdge (maps : List MapGraph) (p q : GId) (w : ℚ) : Prop :=
  (q, w) ∈ globalAdj maps p

/-- Lexicographic tie-break on composite ids: mapId first, then nodeId (spec §4.4). -/
def gidTie (a b : GId) : Bool :=
  lexLt a.1.data b.1.data || (a.1 == b.1 && lexLt a.2.data b.2.data)

/-- One contiguous per-map run of a path result's waypoints (spec §3). -/
structure MapSegment where
  mapId : String
  waypoints : List GId
deriving DecidableEq

/-- The cross-map path result (spec §3): waypoints are modelled by their
composite identities. -/
structure PathResult where
  success : Bool
  waypoints : List GId
  totalWeight : ℚ
  totalNodes : Nat
  segments : List MapSegment
deriving DecidableEq

/-- The no-route result: `success = false` with an empty path (spec §4.5). -/
def emptyPathResult : PathResult :=
  { success := false, waypoints := [], totalWeight := 0, totalNodes := 0, segments := [] }

/-- Modelled from the spec: §4.5 step 3 — partition a waypoint sequence into
MapSegments by run-length grouping on `mapId` (adjacent waypoints with the same
mapId join one segment). -/
def chunkSegments : List GId → List MapSegment
  | [] => []
  | w :: ws =>
    match chunkSegments ws with
    | [] => [⟨w.1, [w]⟩]
    | s :: ss =>
        if s.mapId = w.1 then ⟨s.mapId, w :: s.waypoints⟩ :: ss
        else ⟨w.1, [w]⟩ :: s :: ss

/-- Package a successful waypoint sequence as a PathResult. -/
def mkResult (wps : List GId) (d : ℚ) : PathResult :=
  { success := true, waypoints := wps, totalWeight := d, totalNodes := wps.length,
    segments := chunkSegments wps }

/-- Modelled from the spec: `route` of §4.5, the Cross-Map Router and sole
externally invoked operation.  Same-map requests delegate to the Single-Map
Router on that one map graph; cross-map requests run Dijkstra over the composed
Global Graph; in both cases the waypoints are partitioned into segments and a
missing endpoint or missing route yields `success = false` with an empty path. -/
def route (maps : List MapGraph) (sourceMapId sourceNodeId destMapId destNodeId : String) :
    PathResult :=
  if sourceMapId = destMapId then
    match lookupMap maps sourceMapId with
    | none => emptyPathResult
    | some g =>
      let r := shortestPath g sourceNodeId destNodeId
      if r.success then mkResult (r.path.map (fun n => (sourceMapId, n))) r.totalWeight
      else emptyPathResult
  else
    let r := dijkstraShortest (globalNodes maps) (globalAdj maps) gidTie
      (sourceMapId, sourceNodeId) (destMapId, destNodeId)
    if r.success then mkResult r.path r.totalWeight else emptyPathResult

/-- The keys of a tentative table. -/
def tentKeys {α : Type} (t : Tent α) : List α := t.map (·.1)

/-- Map-graph well-formedness (the §3 invariants `build` establishes): node
ids unique within the map, every edge target an existing node id of the same
map, and weights nonnegative. -/
abbrev WFMap (g : MapGraph) : Prop :=
  g.nodeIds.Nodup ∧
  ∀ pr ∈ g.adjacency, ∀ e ∈ pr.2, e.targetNodeId ∈ g.nodeIds ∧ 0 ≤ e.weight

/-- Map-set well-formedness: map ids unique, each map well-formed. -/
abbrev WFMaps (maps : List MapGraph) : Prop :=
  (maps.map (·.mapId)).Nodup ∧ ∀ g ∈ maps, WFMap g

/-- A composite endpoint exists in the supplied map set. -/
abbrev endpointExists (maps : List MapGraph) (p : GId) : Prop :=
  p ∈ globalNodes maps

/-- The reachability relation `route` answers against: the single stated map
graph when source and destination maps coincide, the composed Global Graph
otherwise (spec §4.5). -/
def routeReachable (maps : List MapGraph) (sm sn dm dn : String) : Prop :=
  if sm = dm then
    ∃ g, lookupMap maps sm = some g ∧ ∃ p d, PathW (mapAdj g) sn dn p d
  else
    ∃ p d, PathW (globalAdj maps) (sm, sn) (dm, dn) p d

/-- Consecutive segments are joined by exactly one gateway edge: the last
waypoint of the first and the first waypoint of the second lie on different
maps and are linked by a gateway-transition edge of the Global Graph. -/
def segJoined (maps : List MapGraph) (s t : MapSegment) : Prop :=
  ∃ x y, s.waypoints.getLast? = some x ∧ t.waypoints.head? = some y ∧
    x.1 ≠ y.1 ∧ GEdge maps x y gatewayTransitionWeight

section DijkstraInvariant

variable {α : Type} [DecidableEq α]

/-- The Dijkstra loop invariant: visited nodes are distinct in-graph nodes,
table keys are distinct in-graph nodes, visited nodes stay in the table, every
table entry records a genuine path of the recorded weight, settled entries are
optimal, all edges out of settled nodes have been relaxed, and the source keeps
its trivial entry. -/
structure DInv (nodes : List α) (adj : α → List (α × ℚ)) (src : α) (s : DState α) :
    Prop where
  vis_nodup : s.visited.Nodup
  vis_sub : ∀ v ∈ s.visited, v ∈ nodes
  keys_nodup : (tentKeys s.tent).Nodup
  keys_sub : ∀ v ∈ tentKeys s.tent, v ∈ nodes
  vis_keys : ∀ v ∈ s.visited, v ∈ tentKeys s.tent
  sound : ∀ e ∈ s.tent, PathW adj src e.1 e.2.2 e.2.1
  settled_opt : ∀ v ∈ s.visited, ∀ d p, tentLookup s.tent v = some (d, p) →
    ∀ q dq, PathW adj src v q dq → d ≤ dq
  relaxed : ∀ u ∈ s.visited, ∀ du pu, tentLookup s.tent u = some (du, pu) →
    ∀ vw ∈ adj u, vw.1 ∉ s.visited →
    ∃ d2 p2, tentLookup s.tent vw.1 = some (d2, p2) ∧ d2 ≤ du + vw.2
  src_entry : tentLookup s.tent src = some (0, [src])

end DijkstraInvariant

/-- All nodes of the supplied maps tagged with the given category, paired with
their maps, in map-iteration order — the `allMatches` collection of
`findNearestNodeByCategory` (src/src/components/AIChatbot.tsx). -/
def allCategoryMatches (allMaps : List MapGraph) (category : String) :
    List (Node × MapGraph) :=
  allMaps.flatMap
    (fun m => (m.nodes.filter (fun n => decide (n.category = some category))).map
      (fun n => (n, m)))

/-- The chatbot's ranking metric (src/src/components/AIChatbot.tsx,
`findNearestNodeByCategory`): the route's waypoint count (`totalNodes`) when
the route succeeds, `Infinity` (here `⊤`) when it fails or throws. -/
def matchDistance (nav : String → String → String → String → PathResult)
    (fromMapId fromNodeId : String) (m : Node × MapGraph) : WithTop Nat :=
  let pathResult := nav fromMapId fromNodeId m.2.mapId m.1.id
  if pathResult.success then (pathResult.totalNodes : WithTop Nat) else ⊤

/-- From src/src/components/AIChatbot.tsx (`findNearestNodeByCategory`):
collect all nodes tagged with the category; with no match return null, with a
single match or no selected start location return the first match, otherwise
rank the matches by pathfinding distance (a stable ascending sort on
`matchDistance`) and return the nearest.  The pathfinder
(`generateNavigationPath`) is a parameter. -/
def findNearestNodeByCategory (nav : String → String → String → String → PathResult)
    (selectedFromMapId selectedFromNodeId : Option String)
    (allMaps : List MapGraph) (category : String) : Option (Node × MapGraph) :=
  let allMatches := allCategoryMatches allMaps category
  match allMatches with
  | [] => none
  | [m] => some m
  | _ =>
    match selectedFromMapId, selectedFromNodeId with
    | some fm, some fn =>
        let withDistance := allMatches.map (fun m => (m, matchDistance nav fm fn m))
        ((withDistance.insertionSort (fun a b => a.2 ≤ b.2)).head?).map (·.1)
    | _, _ => allMatches.head?

/-- From src/src/app/navigate/page.tsx (`calculateDistance`): the route's
waypoint count as the distance metric when the route succeeds, null (`none`)
when it fails or throws. -/
def calculateDistance (nav : String → String → String → String → PathResult)
    (fromP toP : String × String) : Option Nat :=
  let result := nav fromP.1 fromP.2 toP.1 toP.2
  if result.success then some result.totalNodes else none

/-- The first element attaining the minimal key — the specification of "stable
ascending sort, then take the head". -/
def firstMinBy {β : Type} (f : β → WithTop Nat) : List β → Option β
  | [] => none
  | x :: xs =>
    match firstMinBy f xs with
    | none => some x
    | some y => if f x ≤ f y then some x else some y

/-- The fixed category list of src/src/app/api/chat/route.ts
(`Object.keys(validCategories)`, in source order). -/
def validCategories : List String :=
  ["canteen", "restroom_men", "restroom_women", "restroom_general", "library",
   "medical", "office_principal", "office_chairman", "office_hod", "staff_room",
   "office", "accounts", "ground", "gym", "auditorium", "auditorium_kaveri",
   "auditorium_parthasarathy", "drinking_water", "parking", "office_hod_cse",
   "office_hod_ece", "office_hod_mech", "office_hod_civil", "office_hod_it",
   "office_hod_aiml", "office_hod_aids", "computer_lab", "gate"]

/-- ASCII whitespace test of the JS-string model. -/
def isSpaceChar (c : Char) : Bool :=
  c = Char.ofNat 32 || c = Char.ofNat 9 || c = Char.ofNat 10 || c = Char.ofNat 13

/-- The JS `String.prototype.trim` on a char list: drop whitespace from both
ends (ASCII model). -/
def trimChars (l : List Char) : List Char :=
  ((l.dropWhile isSpaceChar).reverse.dropWhile isSpaceChar).reverse

/-- The JS `trim()` (ASCII whitespace model). -/
def jsTrim (s : String) : String := ⟨trimChars s.data⟩

/-- The JS `replace(x60x60x60-fence-regex, "")` (three consecutive backticks,
global, left-to-right, non-overlapping) on a char list. -/
def stripTicks : List Char → List Char
  | c1 :: c2 :: c3 :: rest =>
      if c1 = Char.ofNat 96 ∧ c2 = Char.ofNat 96 ∧ c3 = Char.ofNat 96 then stripTicks rest
      else c1 :: stripTicks (c2 :: c3 :: rest)
  | c :: cs => c :: stripTicks cs
  | [] => []

/-- The JS `replace(quote-class-regex, "")` — remove every single-quote and
double-quote character. -/
def stripQuotes (l : List Char) : List Char :=
  l.filter (fun c => !(c = Char.ofNat 39 || c = Char.ofNat 34))

/-- From src/src/app/api/chat/route.ts: clean the model's raw output — trim
and lowercase, strip markdown backtick fences and quote characters, trim
again (JS string semantics modelled over char lists, ASCII-adequate for the
category vocabulary). -/
def cleanIntent (raw : String) : String :=
  jsTrim ⟨stripQuotes (stripTicks ((jsTrim raw).data.map Char.toLower))⟩

/-- The JSON body and HTTP status of a POST /api/chat response. -/
structure ChatResponse where
  intent : String
  score : ℚ
  status : Nat
deriving DecidableEq

/-- From src/src/app/api/chat/route.ts (`POST`): the handler as a function of
its two effect points — the parsed request body (`none` when `request.json()`
throws; `some none` when the text field is missing or not a string; otherwise
`some (some text)`) and the Gemini call's outcome (`none` when the call
throws).  Missing, non-string or whitespace-only text gives unknown/0 with
status 400; a caught internal error gives unknown/0 with status 500; otherwise
the cleaned model output is validated against `validCategories`, invalid
output becomes "unknown" with score 0, and a recognized intent is returned
with score 0.95. -/
def chatPOST (body : Option (Option String)) (modelOutcome : Option String) :
    ChatResponse :=
  match body with
  | none => { intent := "unknown", score := 0, status := 500 }
  | some none => { intent := "unknown", score := 0, status := 400 }
  | some (some t) =>
    if jsTrim t = "" then { intent := "unknown", score := 0, status := 400 }
    else
      match modelOutcome with
      | none => { intent := "unknown", score := 0, status := 500 }
      | some raw =>
        let intent0 := cleanIntent raw
        let intent := if validCategories.contains intent0 then intent0 else "unknown"
        { intent := intent, score := if intent = "unknown" then 0 else 95 / 100,
          status := 200 }

/-- Fixture (spec §8 same-map example): node A of map floor1. -/
def exNodeA : Node := { id := "A", x := 0, y := 0, type := .NORMAL, name := "A" }

/-- Fixture: node B of map floor1. -/
def exNodeB : Node := { id := "B", x := 0, y := 0, type := .NORMAL, name := "B" }

/-- Fixture: node C of map floor1. -/
def exNodeC : Node := { id := "C", x := 0, y := 0, type := .NORMAL, name := "C" }

/-- Fixture (spec §8): map floor1 with edges A-B weight 2, B-C weight 3,
A-C weight 10, encoded in both directions. -/
def exFloor1 : MapGraph :=
  { mapId := "floor1", nodes := [exNodeA, exNodeB, exNodeC],
    adjacency := [("A", [⟨"B", 2⟩, ⟨"C", 10⟩]), ("B", [⟨"A", 2⟩, ⟨"C", 3⟩]),
                  ("C", [⟨"B", 3⟩, ⟨"A", 10⟩])] }

/-- Fixture (spec §8 cross-map example): the campus gateway to building_a. -/
def exGatewayNode : Node :=
  { id := "entrance_a", x := 0, y := 0, type := .GATEWAY, name := "Entrance A",
    gatewayConfig := some ⟨"building_a", "lobby"⟩ }

/-- Fixture: the campus map holding only the gateway. -/
def exCampus : MapGraph :=
  { mapId := "campus", nodes := [exGatewayNode], adjacency := [] }

/-- Fixture: the lobby node of building_a. -/
def exLobby : Node := { id := "lobby", x := 0, y := 0, type := .NORMAL, name := "Lobby" }

/-- Fixture: room 101 of building_a, tagged with a category for the chatbot. -/
def exRoom101 : Node :=
  { id := "room_101", x := 0, y := 0, type := .ROOM, name := "Room 101",
    category := some "canteen" }

/-- Fixture: the building_a map, lobby connected to room_101 with weight 5. -/
def exBuildingA : MapGraph :=
  { mapId := "building_a", nodes := [exLobby, exRoom101],
    adjacency := [("lobby", [⟨"room_101", 5⟩]), ("room_101", [⟨"lobby", 5⟩])] }

/-- Fixture: a gateway whose config names a map absent from the map set. -/
def exBadGateway : Node :=
  { id := "bad_gw", x := 0, y := 0, type := .GATEWAY, name := "Bad Gateway",
    gatewayConfig := some ⟨"nowhere", "x"⟩ }

/-- Fixture: a second campus map holding only the unresolvable gateway. -/
def exCampus2 : MapGraph :=
  { mapId := "campus2", nodes := [exBadGateway], adjacency := [] }

/-- Fixture: a second canteen-tagged room, so a category has two candidates. -/
def exRoom102 : Node :=
  { id := "room_102", x := 0, y := 0, type := .ROOM, name := "Room 102",
    category := some "canteen" }

/-- Fixture: a building_a variant with two canteen-tagged rooms. -/
def exBuildingA2 : MapGraph :=
  { mapId := "building_a", nodes := [exLobby, exRoom101, exRoom102],
    adjacency := [("lobby", [⟨"room_101", 5⟩, ⟨"room_102", 7⟩]),
                  ("room_101", [⟨"lobby", 5⟩]), ("room_102", [⟨"lobby", 7⟩])] }

section TentLemmas

variable {α : Type} [DecidableEq α]

theorem tentKeys_nil : tentKeys ([] : Tent α) = [] := rfl

theorem tentKeys_cons (e : α × ℚ × List α) (es : Tent α) :
    tentKeys (e :: es) = e.1 :: tentKeys es := rfl

theorem tentKeys_append (t u : Tent α) :
    tentKeys (t ++ u) = tentKeys t ++ tentKeys u := by
  simp [tentKeys]

theorem tentLookup_eq_none_iff {t : Tent α} {v : α} :
    tentLookup t v = none ↔ v ∉ tentKeys t := by
  induction t with
  | nil => simp [tentLookup, tentKeys_nil]
  | cons e es ih =>
    rw [tentKeys_cons]
    by_cases h : e.1 = v
    · simp [tentLookup, h]
    · simp [tentLookup, h, ih, Ne.symm h]

theorem tentLookup_isSome_iff {t : Tent α} {v : α} :
    (tentLookup t v).isSome = true ↔ v ∈ tentKeys t := by
  rw [← Option.ne_none_iff_isSome, ne_eq, tentLookup_eq_none_iff, not_not]

theorem exists_tentLookup_of_mem_keys {t : Tent α} {v : α} (h : v ∈ tentKeys t) :
    ∃ dp, tentLookup t v = some dp := by
  rw [← tentLookup_isSome_iff] at h
  exact ⟨(tentLookup t v).get h, (Option.some_get h).symm⟩

theorem mem_of_tentLookup {t : Tent α} {v : α} {dp : ℚ × List α}
    (h : tentLookup t v = some dp) : (v, dp) ∈ t := by
  induction t with
  | nil => simp [tentLookup] at h
  | cons e es ih =>
    rw [tentLookup] at h
    by_cases he : e.1 = v
    · rw [if_pos he] at h
      obtain rfl := Option.some_injective _ h
      subst he
      exact List.mem_cons_self _ _
    · rw [if_neg he] at h
      exact List.mem_cons_of_mem _ (ih h)

theorem tentLookup_of_mem_nodup {t : Tent α} {v : α} {dp : ℚ × List α}
    (hn : (tentKeys t).Nodup) (h : (v, dp) ∈ t) : tentLookup t v = some dp := by
  induction t with
  | nil => simp at h
  | cons e es ih =>
    rw [tentKeys_cons, List.nodup_cons] at hn
    rcases List.mem_cons.mp h with h | h
    · rw [← h, tentLookup, if_pos rfl]
    · have hv : v ∈ tentKeys es := by
        have : (v, dp).1 ∈ tentKeys es := List.mem_map_of_mem _ h
        exact this
      have he : e.1 ≠ v := fun hev => hn.1 (hev ▸ hv)
      rw [tentLookup, if_neg he]
      exact ih hn.2 h

theorem tentKeys_tentSet_of_mem {t : Tent α} {v : α} (h : v ∈ tentKeys t)
    (d : ℚ) (p : List α) : tentKeys (tentSet t v d p) = tentKeys t := by
  induction t with
  | nil => simp [tentKeys_nil] at h
  | cons e es ih =>
    rw [tentKeys_cons] at h
    by_cases he : e.1 = v
    · simp [tentSet, he, tentKeys_cons]
    · rcases List.mem_cons.mp h with h | h
      · exact absurd h.symm he
      · simp [tentSet, he, tentKeys_cons, ih h]

theorem tentLookup_tentSet_self (t : Tent α) (v : α) (d : ℚ) (p : List α) :
    tentLookup (tentSet t v d p) v = some (d, p) := by
  induction t with
  | nil => simp [tentSet, tentLookup]
  | cons e es ih =>
    by_cases he : e.1 = v
    · simp [tentSet, he, tentLookup]
    · simp [tentSet, he, tentLookup, ih]

theorem tentLookup_tentSet_ne (t : Tent α) {u v : α} (h : u ≠ v) (d : ℚ)
    (p : List α) : tentLookup (tentSet t v d p) u = tentLookup t u := by
  induction t with
  | nil => simp [tentSet, tentLookup, Ne.symm h]
  | cons e es ih =>
    by_cases he : e.1 = v
    · rw [tentSet, if_pos he, tentLookup, if_neg (Ne.symm h), tentLookup,
        if_neg (he ▸ (Ne.symm h) : ¬e.1 = u)]
    · rw [tentSet, if_neg he, tentLookup, tentLookup]
      by_cases heu : e.1 = u
      · rw [if_pos heu, if_pos heu]
      · rw [if_neg heu, if_neg heu, ih]

theorem mem_tentSet {t : Tent α} {v : α} {d : ℚ} {p : List α}
    {e : α × ℚ × List α} (h : e ∈ tentSet t v d p) : e ∈ t ∨ e = (v, d, p) := by
  induction t with
  | nil => simpa [tentSet] using h
  | cons f fs ih =>
    by_cases hf : f.1 = v
    · rw [tentSet, if_pos hf] at h
      rcases List.mem_cons.mp h with h | h
      · exact Or.inr h
      · exact Or.inl (List.mem_cons_of_mem _ h)
    · rw [tentSet, if_neg hf] at h
      rcases List.mem_cons.mp h with h | h
      · exact Or.inl (h ▸ List.mem_cons_self _ _)
      · rcases ih h with h | h
        · exact Or.inl (List.mem_cons_of_mem _ h)
        · exact Or.inr h

theorem extractMin_eq_none_iff {tie : α → α → Bool} {vis : List α} {t : Tent α} :
    extractMin tie vis t = none ↔ ∀ e ∈ t, e.1 ∈ vis := by
  induction t with
  | nil => simp [extractMin]
  | cons e es ih =>
    rw [extractMin]
    by_cases he : e.1 ∈ vis
    · simp only [if_pos he]
      rw [ih]
      constructor
      · intro h f hf
        rcases List.mem_cons.mp hf with rfl | hf
        · exact he
        · exact h f hf
      · intro h f hf
        exact h f (List.mem_cons_of_mem _ hf)
    · simp only [if_neg he]
      constructor
      · intro h
        exfalso
        cases hrest : extractMin tie vis es with
        | none =>
          rw [hrest] at h
          exact Option.some_ne_none _ h
        | some b =>
          rw [hrest] at h
          change (if better tie e b = true then some e else some b) = none at h
          split at h <;> exact Option.some_ne_none _ h
      · intro h
        exact absurd (h e (List.mem_cons_self _ _)) he

theorem extractMin_spec {tie : α → α → Bool} {vis : List α} {t : Tent α}
    {u : α × ℚ × List α} (h : extractMin tie vis t = some u) :
    u ∈ t ∧ u.1 ∉ vis ∧ ∀ f ∈ t, f.1 ∉ vis → u.2.1 ≤ f.2.1 := by
  induction t generalizing u with
  | nil => simp [extractMin] at h
  | cons e es ih =>
    rw [extractMin] at h
    by_cases he : e.1 ∈ vis
    · rw [if_pos he] at h
      obtain ⟨hm, hv, hmin⟩ := ih h
      refine ⟨List.mem_cons_of_mem _ hm, hv, ?_⟩
      intro f hf hfv
      rcases List.mem_cons.mp hf with rfl | hf
      · exact absurd he hfv
      · exact hmin f hf hfv
    · rw [if_neg he] at h
      cases hrest : extractMin tie vis es with
      | none =>
        rw [hrest] at h
        change some e = some u at h
        obtain rfl := Option.some_injective _ h
        refine ⟨List.mem_cons_self _ _, he, ?_⟩
        intro f hf hfv
        rcases List.mem_cons.mp hf with rfl | hf
        · exact le_refl _
        · exact absurd ((extractMin_eq_none_iff).mp hrest f hf) hfv
      | some b =>
        rw [hrest] at h
        change (if better tie e b = true then some e else some b) = some u at h
        obtain ⟨hbm, hbv, hbmin⟩ := ih hrest
        by_cases hb : better tie e b = true
        · rw [if_pos hb] at h
          obtain rfl := Option.some_injective _ h
          simp only [better, Bool.or_eq_true, Bool.and_eq_true, decide_eq_true_eq] at hb
          have heb : e.2.1 ≤ b.2.1 := by
            rcases hb with h1 | h1
            · exact le_of_lt h1
            · exact le_of_eq h1.1
          refine ⟨List.mem_cons_self _ _, he, ?_⟩
          intro f hf hfv
          rcases List.mem_cons.mp hf with rfl | hf
          · exact le_refl _
          · exact le_trans heb (hbmin f hf hfv)
        · rw [if_neg hb] at h
          obtain rfl := Option.some_injective _ h
          have hbe : b.2.1 ≤ e.2.1 := by
            rcases lt_trichotomy e.2.1 b.2.1 with h1 | h1 | h1
            · exfalso
              apply hb
              simp only [better, Bool.or_eq_true, decide_eq_true_eq]
              exact Or.inl h1
            · exact le_of_eq h1.symm
            · exact le_of_lt h1
          refine ⟨List.mem_cons_of_mem _ hbm, hbv, ?_⟩
          intro f hf hfv
          rcases List.mem_cons.mp hf with rfl | hf
          · exact hbe
          · exact hbmin f hf hfv

end TentLemmas

section PathWLemmas

variable {α : Type} [DecidableEq α] {adj : α → List (α × ℚ)}

theorem PathW.ne_nil {a b : α} {p : List α} {d : ℚ} (h : PathW adj a b p d) :
    p ≠ [] := by
  cases h with
  | single => simp
  | snoc h he => simp

theorem PathW.nonneg {a b : α} {p : List α} {d : ℚ}
    (hnn : ∀ u vw, vw ∈ adj u → 0 ≤ vw.2) (h : PathW adj a b p d) : 0 ≤ d := by
  induction h with
  | single => exact le_refl 0
  | snoc hp he ih => exact add_nonneg ih (hnn _ _ he)

theorem PathW.end_mem {nodes : List α} {a b : α} {p : List α} {d : ℚ}
    (hcl : ∀ u vw, vw ∈ adj u → vw.1 ∈ nodes) (h : PathW adj a b p d) :
    b = a ∨ b ∈ nodes := by
  cases h with
  | single => exact Or.inl rfl
  | snoc hp he => exact Or.inr (hcl _ _ he)

theorem PathW.head_eq {a b : α} {p : List α} {d : ℚ} (h : PathW adj a b p d) :
    p.head? = some a := by
  induction h with
  | single => rfl
  | snoc hp he ih =>
    rename_i p d w
    cases p with
    | nil => simp at ih
    | cons x xs => simpa using ih

theorem PathW.last_eq {a b : α} {p : List α} {d : ℚ} (h : PathW adj a b p d) :
    p.getLast? = some b := by
  cases h with
  | single => rfl
  | snoc hp he => simp [List.getLast?_append]

theorem PathW.chain {a b : α} {p : List α} {d : ℚ} (h : PathW adj a b p d) :
    List.Chain' (fun x y => ∃ w, (y, w) ∈ adj x) p := by
  induction h with
  | single => simp
  | snoc hp he ih =>
    rename_i a0 b0 c0 p0 d0 w0
    apply List.Chain'.append ih (by simp)
    intro x hx y hy
    have hx2 : x = b0 := by
      have := hp.last_eq
      rw [this] at hx
      exact Option.some_injective _ hx.symm
    have hy2 : y = c0 := by
      simp at hy
      exact hy.symm
    subst hx2
    subst hy2
    exact ⟨w0, he⟩

end PathWLemmas

section RelaxLemmas

variable {α : Type} [DecidableEq α]

theorem tentLookup_append_of_none {t : Tent α} {v : α} (h : tentLookup t v = none)
    (u : Tent α) : tentLookup (t ++ u) v = tentLookup u v := by
  induction t with
  | nil => rfl
  | cons e es ih =>
    rw [tentLookup] at h
    by_cases he : e.1 = v
    · rw [if_pos he] at h
      exact absurd h (Option.some_ne_none _)
    · rw [if_neg he] at h
      rw [List.cons_append, tentLookup, if_neg he]
      exact ih h

theorem relaxOne_of_vis {vis : List α} {du : ℚ} {pu : List α} {t : Tent α}
    {vw : α × ℚ} (h : vw.1 ∈ vis) : relaxOne vis du pu t vw = t := by
  rw [relaxOne, if_pos h]

theorem relaxOne_eq_append {vis : List α} {du : ℚ} {pu : List α} {t : Tent α}
    {vw : α × ℚ} (hnv : vw.1 ∉ vis) (h : tentLookup t vw.1 = none) :
    relaxOne vis du pu t vw = t ++ [(vw.1, du + vw.2, pu ++ [vw.1])] := by
  rw [relaxOne, if_neg hnv, h]

theorem relaxOne_eq_update {vis : List α} {du : ℚ} {pu : List α} {t : Tent α}
    {vw : α × ℚ} {dv : ℚ} {pv : List α} (hnv : vw.1 ∉ vis)
    (h : tentLookup t vw.1 = some (dv, pv)) (hlt : du + vw.2 < dv) :
    relaxOne vis du pu t vw = tentSet t vw.1 (du + vw.2) (pu ++ [vw.1]) := by
  rw [relaxOne, if_neg hnv, h]
  show (if du + vw.2 < dv then tentSet t vw.1 (du + vw.2) (pu ++ [vw.1]) else t) = _
  rw [if_pos hlt]

theorem relaxOne_eq_keep {vis : List α} {du : ℚ} {pu : List α} {t : Tent α}
    {vw : α × ℚ} {dv : ℚ} {pv : List α} (hnv : vw.1 ∉ vis)
    (h : tentLookup t vw.1 = some (dv, pv)) (hge : ¬du + vw.2 < dv) :
    relaxOne vis du pu t vw = t := by
  rw [relaxOne, if_neg hnv, h]
  show (if du + vw.2 < dv then tentSet t vw.1 (du + vw.2) (pu ++ [vw.1]) else t) = _
  rw [if_neg hge]

theorem relaxOne_cases (vis : List α) (du : ℚ) (pu : List α) (t : Tent α)
    (vw : α × ℚ) :
    relaxOne vis du pu t vw = t ∨
      (vw.1 ∉ vis ∧ tentLookup t vw.1 = none ∧
        relaxOne vis du pu t vw = t ++ [(vw.1, du + vw.2, pu ++ [vw.1])]) ∨
      (vw.1 ∉ vis ∧ (∃ dv pv, tentLookup t vw.1 = some (dv, pv) ∧ du + vw.2 < dv) ∧
        relaxOne vis du pu t vw = tentSet t vw.1 (du + vw.2) (pu ++ [vw.1])) := by
  by_cases hnv : vw.1 ∈ vis
  · exact Or.inl (relaxOne_of_vis hnv)
  · cases hl : tentLookup t vw.1 with
    | none => exact Or.inr (Or.inl ⟨hnv, rfl, relaxOne_eq_append hnv hl⟩)
    | some dp =>
      obtain ⟨dv, pv⟩ := dp
      by_cases hlt : du + vw.2 < dv
      · exact Or.inr (Or.inr ⟨hnv, ⟨dv, pv, rfl, hlt⟩, relaxOne_eq_update hnv hl hlt⟩)
      · exact Or.inl (relaxOne_eq_keep hnv hl hlt)

theorem tentLookup_append_single_ne {t : Tent α} {x : α × ℚ × List α} {v : α}
    (h : x.1 ≠ v) : tentLookup (t ++ [x]) v = tentLookup t v := by
  induction t with
  | nil => simp [tentLookup, h]
  | cons e es ih =>
    rw [List.cons_append, tentLookup, tentLookup]
    by_cases he : e.1 = v
    · rw [if_pos he, if_pos he]
    · rw [if_neg he, if_neg he, ih]

theorem tentLookup_relaxOne_ne {vis : List α} {du : ℚ} {pu : List α} {t : Tent α}
    {vw : α × ℚ} {v : α} (h : v ≠ vw.1) :
    tentLookup (relaxOne vis du pu t vw) v = tentLookup t v := by
  rcases relaxOne_cases vis du pu t vw
    with he | ⟨_, hl, he⟩ | ⟨_, _, he⟩
  · rw [he]
  · rw [he, tentLookup_append_single_ne (Ne.symm h)]
  · rw [he, tentLookup_tentSet_ne t h]

theorem tentLookup_relaxOne_le {vis : List α} {du : ℚ} {pu : List α} {t : Tent α}
    {vw : α × ℚ} {v : α} {d : ℚ} {p : List α} (h : tentLookup t v = some (d, p)) :
    ∃ d2 p2, tentLookup (relaxOne vis du pu t vw) v = some (d2, p2) ∧ d2 ≤ d := by
  by_cases hv : v = vw.1
  · subst hv
    rcases relaxOne_cases vis du pu t vw
      with he | ⟨_, hl, he⟩ | ⟨_, ⟨dv, pv, hl, hlt⟩, he⟩
    · exact ⟨d, p, by rw [he]; exact h, le_refl d⟩
    · rw [hl] at h
      exact absurd h (Option.noConfusion)
    · rw [hl] at h
      have h2 : (dv, pv) = (d, p) := Option.some_injective _ h
      have hd : dv = d := congrArg Prod.fst h2
      refine ⟨du + vw.2, pu ++ [vw.1], ?_, ?_⟩
      · rw [he]
        exact tentLookup_tentSet_self t _ _ _
      · exact le_of_lt (hd ▸ hlt)
  · exact ⟨d, p, by rw [tentLookup_relaxOne_ne hv]; exact h, le_refl d⟩

theorem tentLookup_relaxOne_bound {vis : List α} {du : ℚ} {pu : List α}
    {t : Tent α} {vw : α × ℚ} (hv : vw.1 ∉ vis) :
    ∃ d2 p2, tentLookup (relaxOne vis du pu t vw) vw.1 = some (d2, p2) ∧
      d2 ≤ du + vw.2 := by
  cases hl : tentLookup t vw.1 with
  | none =>
    refine ⟨du + vw.2, pu ++ [vw.1], ?_, le_refl _⟩
    rw [relaxOne_eq_append hv hl, tentLookup_append_of_none hl, tentLookup, if_pos rfl]
  | some dp =>
    obtain ⟨dv, pv⟩ := dp
    by_cases hlt : du + vw.2 < dv
    · refine ⟨du + vw.2, pu ++ [vw.1], ?_, le_refl _⟩
      rw [relaxOne_eq_update hv hl hlt]
      exact tentLookup_tentSet_self t _ _ _
    · refine ⟨dv, pv, ?_, le_of_not_lt hlt⟩
      rw [relaxOne_eq_keep hv hl hlt]
      exact hl

theorem tentLookup_relaxOne_keep {vis : List α} {du : ℚ} {pu : List α}
    {t : Tent α} {vw : α × ℚ} {v : α} {d : ℚ} {p : List α}
    (h : tentLookup t v = some (d, p)) (hle : d ≤ du + vw.2) :
    tentLookup (relaxOne vis du pu t vw) v = some (d, p) := by
  by_cases hv : v = vw.1
  · subst hv
    by_cases hvis : vw.1 ∈ vis
    · rw [relaxOne_of_vis hvis]
      exact h
    · rw [relaxOne_eq_keep hvis h (not_lt_of_le hle)]
      exact h
  · rw [tentLookup_relaxOne_ne hv]
    exact h

theorem relaxOne_sound {adj : α → List (α × ℚ)} {src u : α} {vis : List α}
    {du : ℚ} {pu : List α} {t : Tent α} {vw : α × ℚ}
    (hu : PathW adj src u pu du) (hedge : vw ∈ adj u)
    (hs : ∀ e ∈ t, PathW adj src e.1 e.2.2 e.2.1) :
    ∀ e ∈ relaxOne vis du pu t vw, PathW adj src e.1 e.2.2 e.2.1 := by
  intro e he
  rcases relaxOne_cases vis du pu t vw
    with hr | ⟨_, _, hr⟩ | ⟨_, _, hr⟩
  · rw [hr] at he
    exact hs e he
  · rw [hr] at he
    rcases List.mem_append.mp he with he | he
    · exact hs e he
    · have : e = (vw.1, du + vw.2, pu ++ [vw.1]) := List.mem_singleton.mp he
      rw [this]
      exact PathW.snoc hu hedge
  · rw [hr] at he
    rcases mem_tentSet he with he | he
    · exact hs e he
    · rw [he]
      exact PathW.snoc hu hedge

theorem tentKeys_relaxOne (vis : List α) (du : ℚ) (pu : List α) (t : Tent α)
    (vw : α × ℚ) :
    tentKeys (relaxOne vis du pu t vw) = tentKeys t ∨
      (tentKeys (relaxOne vis du pu t vw) = tentKeys t ++ [vw.1] ∧
        vw.1 ∉ tentKeys t) := by
  rcases relaxOne_cases vis du pu t vw
    with hr | ⟨_, hl, hr⟩ | ⟨_, ⟨dv, pv, hl, _⟩, hr⟩
  · rw [hr]
    exact Or.inl rfl
  · right
    refine ⟨?_, tentLookup_eq_none_iff.mp hl⟩
    rw [hr, tentKeys_append]
    rfl
  · left
    rw [hr]
    exact tentKeys_tentSet_of_mem (tentLookup_isSome_iff.mp (by rw [hl]; rfl)) _ _

theorem tentKeys_relaxOne_nodup {vis : List α} {du : ℚ} {pu : List α}
    {t : Tent α} {vw : α × ℚ} (h : (tentKeys t).Nodup) :
    (tentKeys (relaxOne vis du pu t vw)).Nodup := by
  rcases tentKeys_relaxOne vis du pu t vw
    with hk | ⟨hk, hfresh⟩
  · rw [hk]
    exact h
  · rw [hk]
    simp only [List.nodup_append, List.nodup_cons, List.not_mem_nil, not_false_iff,
      List.nodup_nil, and_true, true_and, List.disjoint_singleton]
    exact ⟨h, hfresh⟩

theorem tentKeys_relaxOne_mem {vis : List α} {du : ℚ} {pu : List α}
    {t : Tent α} {vw : α × ℚ} {v : α}
    (h : v ∈ tentKeys (relaxOne vis du pu t vw)) : v ∈ tentKeys t ∨ v = vw.1 := by
  rcases tentKeys_relaxOne vis du pu t vw
    with hk | ⟨hk, _⟩
  · rw [hk] at h
    exact Or.inl h
  · rw [hk] at h
    rcases List.mem_append.mp h with h | h
    · exact Or.inl h
    · exact Or.inr (List.mem_singleton.mp h)

theorem tentKeys_relaxOne_mono {vis : List α} {du : ℚ} {pu : List α}
    {t : Tent α} {vw : α × ℚ} {v : α} (h : v ∈ tentKeys t) :
    v ∈ tentKeys (relaxOne vis du pu t vw) := by
  rcases tentKeys_relaxOne vis du pu t vw
    with hk | ⟨hk, _⟩
  · rw [hk]
    exact h
  · rw [hk]
    exact List.mem_append_left _ h

end RelaxLemmas

section FoldRelax

variable {α : Type} [DecidableEq α]

theorem foldl_relax_vis {vis : List α} {du : ℚ} {pu : List α} {v : α}
    (hv : v ∈ vis) : ∀ (es : List (α × ℚ)) (t : Tent α),
    tentLookup (es.foldl (relaxOne vis du pu) t) v = tentLookup t v := by
  intro es
  induction es with
  | nil => intro t; rfl
  | cons e es ih =>
    intro t
    rw [List.foldl_cons, ih]
    by_cases he : v = e.1
    · rw [relaxOne_of_vis (he ▸ hv)]
    · exact tentLookup_relaxOne_ne he

theorem foldl_relax_le {vis : List α} {du : ℚ} {pu : List α} :
    ∀ (es : List (α × ℚ)) (t : Tent α) (v : α) (d : ℚ) (p : List α),
    tentLookup t v = some (d, p) →
    ∃ d2 p2, tentLookup (es.foldl (relaxOne vis du pu) t) v = some (d2, p2) ∧
      d2 ≤ d := by
  intro es
  induction es with
  | nil => exact fun t v d p h => ⟨d, p, h, le_refl d⟩
  | cons e es ih =>
    intro t v d p h
    obtain ⟨d1, p1, h1, hle1⟩ := @tentLookup_relaxOne_le α _ vis du pu t e v d p h
    obtain ⟨d2, p2, h2, hle2⟩ := ih _ v d1 p1 h1
    exact ⟨d2, p2, h2, le_trans hle2 hle1⟩

theorem foldl_relax_sound {adj : α → List (α × ℚ)} {src u : α} {vis : List α}
    {du : ℚ} {pu : List α} (hu : PathW adj src u pu du) :
    ∀ (es : List (α × ℚ)), (∀ vw ∈ es, vw ∈ adj u) →
    ∀ (t : Tent α), (∀ e ∈ t, PathW adj src e.1 e.2.2 e.2.1) →
    ∀ e ∈ es.foldl (relaxOne vis du pu) t, PathW adj src e.1 e.2.2 e.2.1 := by
  intro es
  induction es with
  | nil => exact fun _ t ht => ht
  | cons vw es ih =>
    intro hsub t ht
    rw [List.foldl_cons]
    exact ih (fun x hx => hsub x (List.mem_cons_of_mem _ hx)) _
      (relaxOne_sound hu (hsub vw (List.mem_cons_self _ _)) ht)

theorem foldl_relax_bound {vis : List α} {du : ℚ} {pu : List α} :
    ∀ (es : List (α × ℚ)) (t : Tent α) (vw : α × ℚ), vw ∈ es → vw.1 ∉ vis →
    ∃ d2 p2, tentLookup (es.foldl (relaxOne vis du pu) t) vw.1 = some (d2, p2) ∧
      d2 ≤ du + vw.2 := by
  intro es
  induction es with
  | nil => intro t vw h; simp at h
  | cons e es ih =>
    intro t vw hmem hnv
    rcases List.mem_cons.mp hmem with rfl | hmem
    · obtain ⟨d1, p1, h1, hle1⟩ := @tentLookup_relaxOne_bound α _ vis du pu t vw hnv
      obtain ⟨d2, p2, h2, hle2⟩ := foldl_relax_le es _ _ d1 p1 h1
      exact ⟨d2, p2, h2, le_trans hle2 hle1⟩
    · exact ih _ vw hmem hnv

theorem foldl_relax_keep {vis : List α} {du : ℚ} {pu : List α} :
    ∀ (es : List (α × ℚ)) (t : Tent α) (v : α) (d : ℚ) (p : List α),
    tentLookup t v = some (d, p) → (∀ vw ∈ es, d ≤ du + vw.2) →
    tentLookup (es.foldl (relaxOne vis du pu) t) v = some (d, p) := by
  intro es
  induction es with
  | nil => exact fun t v d p h _ => h
  | cons e es ih =>
    intro t v d p h hle
    rw [List.foldl_cons]
    exact ih _ v d p (tentLookup_relaxOne_keep h (hle e (List.mem_cons_self _ _)))
      (fun vw hvw => hle vw (List.mem_cons_of_mem _ hvw))

theorem foldl_relax_keys_nodup {vis : List α} {du : ℚ} {pu : List α} :
    ∀ (es : List (α × ℚ)) (t : Tent α), (tentKeys t).Nodup →
    (tentKeys (es.foldl (relaxOne vis du pu) t)).Nodup := by
  intro es
  induction es with
  | nil => exact fun t h => h
  | cons e es ih => exact fun t h => ih _ (tentKeys_relaxOne_nodup h)

theorem foldl_relax_keys_mem {vis : List α} {du : ℚ} {pu : List α} :
    ∀ (es : List (α × ℚ)) (t : Tent α) (v : α),
    v ∈ tentKeys (es.foldl (relaxOne vis du pu) t) →
    v ∈ tentKeys t ∨ v ∈ es.map (·.1) := by
  intro es
  induction es with
  | nil => exact fun t v h => Or.inl h
  | cons e es ih =>
    intro t v h
    rcases ih _ v h with h | h
    · rcases tentKeys_relaxOne_mem h with h | h
      · exact Or.inl h
      · exact Or.inr (by rw [List.map_cons]; exact h ▸ List.mem_cons_self _ _)
    · exact Or.inr (by rw [List.map_cons]; exact List.mem_cons_of_mem _ h)

theorem foldl_relax_keys_mono {vis : List α} {du : ℚ} {pu : List α} :
    ∀ (es : List (α × ℚ)) (t : Tent α) (v : α), v ∈ tentKeys t →
    v ∈ tentKeys (es.foldl (relaxOne vis du pu) t) := by
  intro es
  induction es with
  | nil => exact fun t v h => h
  | cons e es ih => exact fun t v h => ih _ v (tentKeys_relaxOne_mono h)

end FoldRelax

section DInvLemmas

variable {α : Type} [DecidableEq α]
variable {nodes : List α} {adj : α → List (α × ℚ)} {src : α} {tie : α → α → Bool}

theorem DInv_init (hsrc : src ∈ nodes) :
    DInv nodes adj src ⟨[], [(src, 0, [src])]⟩ := by
  refine ⟨List.nodup_nil, ?_, ?_, ?_, ?_, ?_, ?_, ?_, ?_⟩
  · intro v hv
    simp at hv
  · simp [tentKeys]
  · intro v hv
    simp [tentKeys] at hv
    rw [hv]
    exact hsrc
  · intro v hv
    simp at hv
  · intro e he
    rcases List.mem_singleton.mp he with rfl
    exact PathW.single src
  · intro v hv
    simp at hv
  · intro u hu
    simp at hu
  · rw [tentLookup, if_pos rfl]

theorem DInv.frontier {s : DState α} (hinv : DInv nodes adj src s)
    (hnn : ∀ u vw, vw ∈ adj u → 0 ≤ vw.2) :
    ∀ {v : α} {q : List α} {d : ℚ}, PathW adj src v q d → v ∉ s.visited →
    ∃ y dy py, y ∉ s.visited ∧ tentLookup s.tent y = some (dy, py) ∧ dy ≤ d := by
  intro v q d hp
  induction hp with
  | single => exact fun hv => ⟨src, 0, [src], hv, hinv.src_entry, le_refl 0⟩
  | snoc hp he ih =>
    rename_i a b c p d0 w0
    intro hc
    have hw0 : (0 : ℚ) ≤ w0 := hnn b (c, w0) he
    by_cases hb : b ∈ s.visited
    · obtain ⟨dbp, hdbp⟩ := exists_tentLookup_of_mem_keys (hinv.vis_keys b hb)
      obtain ⟨db, pb⟩ := dbp
      have hdb_le : db ≤ d0 := hinv.settled_opt b hb db pb hdbp _ _ hp
      obtain ⟨d2, p2, h2, hle2⟩ := hinv.relaxed b hb db pb hdbp (c, w0) he hc
      refine ⟨c, d2, p2, hc, h2, ?_⟩
      calc d2 ≤ db + w0 := hle2
        _ ≤ d0 + w0 := by linarith
    · obtain ⟨y, dy, py, hyv, hyl, hyle⟩ := ih hb
      exact ⟨y, dy, py, hyv, hyl, by linarith⟩

theorem extract_optimal {s : DState α} (hinv : DInv nodes adj src s)
    (hnn : ∀ u vw, vw ∈ adj u → 0 ≤ vw.2) {u : α × ℚ × List α}
    (hex : extractMin tie s.visited s.tent = some u) :
    ∀ q d, PathW adj src u.1 q d → u.2.1 ≤ d := by
  intro q d hp
  obtain ⟨hmem, hnv, hmin⟩ := extractMin_spec hex
  obtain ⟨y, dy, py, hyv, hyl, hyle⟩ := hinv.frontier hnn hp hnv
  exact le_trans (hmin (y, dy, py) (mem_of_tentLookup hyl) hyv) hyle

theorem DInv.settle_preserves {s : DState α} (hinv : DInv nodes adj src s)
    (hnn : ∀ u vw, vw ∈ adj u → 0 ≤ vw.2)
    (hcl : ∀ u vw, vw ∈ adj u → vw.1 ∈ nodes)
    {u : α × ℚ × List α} (hex : extractMin tie s.visited s.tent = some u) :
    DInv nodes adj src (settle adj s u) := by
  obtain ⟨hmem, hnv, hmin⟩ := extractMin_spec hex
  have hlu : tentLookup s.tent u.1 = some u.2 :=
    tentLookup_of_mem_nodup hinv.keys_nodup hmem
  have hu_sound : PathW adj src u.1 u.2.2 u.2.1 := hinv.sound u hmem
  have hopt : ∀ q d, PathW adj src u.1 q d → u.2.1 ≤ d :=
    extract_optimal hinv hnn hex
  have hukey : u.1 ∈ tentKeys s.tent := List.mem_map_of_mem _ hmem
  refine ⟨?_, ?_, ?_, ?_, ?_, ?_, ?_, ?_, ?_⟩
  · exact List.nodup_cons.mpr ⟨hnv, hinv.vis_nodup⟩
  · intro v hv
    rcases List.mem_cons.mp hv with rfl | hv
    · exact hinv.keys_sub _ hukey
    · exact hinv.vis_sub v hv
  · exact foldl_relax_keys_nodup _ _ hinv.keys_nodup
  · intro v hv
    rcases foldl_relax_keys_mem _ _ _ hv with hv | hv
    · exact hinv.keys_sub v hv
    · obtain ⟨vw, hvw, rfl⟩ := List.mem_map.mp hv
      exact hcl u.1 vw hvw
  · intro v hv
    rcases List.mem_cons.mp hv with rfl | hv
    · exact foldl_relax_keys_mono _ _ _ hukey
    · exact foldl_relax_keys_mono _ _ _ (hinv.vis_keys v hv)
  · exact foldl_relax_sound hu_sound _ (fun vw hvw => hvw) _ hinv.sound
  · intro v hv d p hlk q dq hq
    simp only [settle] at hlk
    rcases List.mem_cons.mp hv with rfl | hv
    · rw [foldl_relax_vis (List.mem_cons_self _ _), hlu] at hlk
      have : u.2 = (d, p) := Option.some_injective _ hlk
      have hd : u.2.1 = d := congrArg Prod.fst this
      rw [← hd]
      exact hopt q dq hq
    · rw [foldl_relax_vis (List.mem_cons_of_mem _ hv)] at hlk
      exact hinv.settled_opt v hv d p hlk q dq hq
  · intro w hw dw pw hlkw vw hvw hnvw
    simp only [settle] at hlkw ⊢
    have hnvw2 : vw.1 ∉ s.visited := fun h => hnvw (List.mem_cons_of_mem _ h)
    have hnvw1 : vw.1 ≠ u.1 := fun h => hnvw (h ▸ List.mem_cons_self _ _)
    rcases List.mem_cons.mp hw with rfl | hw
    · rw [foldl_relax_vis (List.mem_cons_self _ _), hlu] at hlkw
      have : u.2 = (dw, pw) := Option.some_injective _ hlkw
      have hd : u.2.1 = dw := congrArg Prod.fst this
      obtain ⟨d2, p2, h2, hle2⟩ := foldl_relax_bound (adj u.1) s.tent vw hvw hnvw
      exact ⟨d2, p2, h2, by rw [← hd]; exact hle2⟩
    · rw [foldl_relax_vis (List.mem_cons_of_mem _ hw)] at hlkw
      obtain ⟨d2, p2, h2, hle2⟩ := hinv.relaxed w hw dw pw hlkw vw hvw hnvw2
      obtain ⟨d3, p3, h3, hle3⟩ := foldl_relax_le (adj u.1) s.tent vw.1 d2 p2 h2
      exact ⟨d3, p3, h3, le_trans hle3 hle2⟩
  · have h0 : (0 : ℚ) ≤ u.2.1 := PathW.nonneg hnn hu_sound
    exact foldl_relax_keep _ _ _ _ _ hinv.src_entry
      (fun vw hvw => add_nonneg h0 (hnn u.1 vw hvw))

theorem dloop_DInv (hnn : ∀ u vw, vw ∈ adj u → 0 ≤ vw.2)
    (hcl : ∀ u vw, vw ∈ adj u → vw.1 ∈ nodes) :
    ∀ (f : Nat) (s : DState α), DInv nodes adj src s →
    DInv nodes adj src (dloop adj tie f s) := by
  intro f
  induction f with
  | zero => exact fun s h => h
  | succ f ih =>
    intro s hinv
    cases hex : extractMin tie s.visited s.tent with
    | none =>
      simp only [dloop, hex]
      exact hinv
    | some u =>
      simp only [dloop, hex]
      exact ih _ (hinv.settle_preserves hnn hcl hex)

theorem dloop_final_none (hnodes : nodes.Nodup)
    (hnn : ∀ u vw, vw ∈ adj u → 0 ≤ vw.2)
    (hcl : ∀ u vw, vw ∈ adj u → vw.1 ∈ nodes) :
    ∀ (f : Nat) (s : DState α), DInv nodes adj src s →
    nodes.length + 1 - s.visited.length ≤ f →
    extractMin tie (dloop adj tie f s).visited (dloop adj tie f s).tent = none := by
  intro f
  induction f with
  | zero =>
    intro s hinv hf
    exfalso
    have hsub : s.visited ⊆ nodes := fun v hv => hinv.vis_sub v hv
    have hlen : s.visited.length ≤ nodes.length :=
      (hinv.vis_nodup.subperm hsub).length_le
    omega
  | succ f ih =>
    intro s hinv hf
    cases hex : extractMin tie s.visited s.tent with
    | none => simp only [dloop, hex]
    | some u =>
      simp only [dloop, hex]
      apply ih _ (hinv.settle_preserves hnn hcl hex)
      have : (settle adj s u).visited.length = s.visited.length + 1 := rfl
      omega

theorem dijkstra_correct (hnodes : nodes.Nodup)
    (hnn : ∀ u vw, vw ∈ adj u → 0 ≤ vw.2)
    (hcl : ∀ u vw, vw ∈ adj u → vw.1 ∈ nodes)
    (hsrc : src ∈ nodes) {dst : α}
    (hreach : ∃ q d, PathW adj src dst q d) :
    (dijkstraShortest nodes adj tie src dst).success = true ∧
    PathW adj src dst (dijkstraShortest nodes adj tie src dst).path
      (dijkstraShortest nodes adj tie src dst).totalWeight ∧
    ∀ q d, PathW adj src dst q d →
      (dijkstraShortest nodes adj tie src dst).totalWeight ≤ d := by
  obtain ⟨q0, d0, hq0⟩ := hreach
  have hdst : dst ∈ nodes := by
    rcases PathW.end_mem hcl hq0 with rfl | h
    · exact hsrc
    · exact h
  by_cases hsd : src = dst
  · subst hsd
    rw [dijkstraShortest, if_pos ⟨hsrc, hdst⟩, if_pos rfl]
    exact ⟨rfl, PathW.single src, fun q d hq => PathW.nonneg hnn hq⟩
  · have hinv : DInv nodes adj src
        (dloop adj tie (nodes.length + 1) ⟨[], [(src, 0, [src])]⟩) :=
      dloop_DInv hnn hcl _ _ (DInv_init hsrc)
    have hnone := @dloop_final_none α _ nodes adj src tie hnodes hnn hcl
      (nodes.length + 1) ⟨[], [(src, 0, [src])]⟩ (DInv_init hsrc) (by simp)
    set final := dloop adj tie (nodes.length + 1) ⟨[], [(src, 0, [src])]⟩ with hfinal
    have hvisited : dst ∈ final.visited := by
      by_contra hvd
      obtain ⟨y, dy, py, hyv, hyl, _⟩ := hinv.frontier hnn hq0 hvd
      exact hyv (extractMin_eq_none_iff.mp hnone (y, dy, py) (mem_of_tentLookup hyl))
    obtain ⟨dp, hdp⟩ := exists_tentLookup_of_mem_keys (hinv.vis_keys dst hvisited)
    obtain ⟨dstar, pstar⟩ := dp
    have hres : dijkstraShortest nodes adj tie src dst =
        { success := true, path := pstar, totalWeight := dstar } := by
      rw [dijkstraShortest, if_pos ⟨hsrc, hdst⟩, if_neg hsd, ← hfinal]
      show (match tentLookup final.tent dst with
        | none => failSP
        | some (d, p) => { success := true, path := p, totalWeight := d }) =
        { success := true, path := pstar, totalWeight := dstar }
      rw [hdp]
    rw [hres]
    refine ⟨rfl, ?_, ?_⟩
    · exact hinv.sound (dst, dstar, pstar) (mem_of_tentLookup hdp)
    · exact fun q d hq => hinv.settled_opt dst hvisited dstar pstar hdp q d hq

end DInvLemmas

section Soundness

variable {α : Type} [DecidableEq α]
variable {adj : α → List (α × ℚ)} {src : α} {tie : α → α → Bool}

theorem dloop_sound : ∀ (f : Nat) (s : DState α),
    (∀ e ∈ s.tent, PathW adj src e.1 e.2.2 e.2.1) →
    ∀ e ∈ (dloop adj tie f s).tent, PathW adj src e.1 e.2.2 e.2.1 := by
  intro f
  induction f with
  | zero => exact fun s h => h
  | succ f ih =>
    intro s hs
    cases hex : extractMin tie s.visited s.tent with
    | none =>
      simp only [dloop, hex]
      exact hs
    | some u =>
      simp only [dloop, hex]
      apply ih
      have hu := hs u (extractMin_spec hex).1
      simp only [settle]
      exact foldl_relax_sound hu _ (fun vw h => h) _ hs

theorem dijkstraShortest_success_sound {nodes : List α} {dst : α}
    (h : (dijkstraShortest nodes adj tie src dst).success = true) :
    src ∈ nodes ∧ dst ∈ nodes ∧
    PathW adj src dst (dijkstraShortest nodes adj tie src dst).path
      (dijkstraShortest nodes adj tie src dst).totalWeight := by
  by_cases hm : src ∈ nodes ∧ dst ∈ nodes
  · refine ⟨hm.1, hm.2, ?_⟩
    by_cases hsd : src = dst
    · subst hsd
      rw [dijkstraShortest, if_pos hm, if_pos rfl]
      exact PathW.single src
    · have hsound := @dloop_sound α _ adj src tie (nodes.length + 1)
        ⟨[], [(src, 0, [src])]⟩
        (by
          intro e he
          rcases List.mem_singleton.mp he with rfl
          exact PathW.single src)
      set final := dloop adj tie (nodes.length + 1)
        (⟨[], [(src, 0, [src])]⟩ : DState α) with hfinal
      cases hl : tentLookup final.tent dst with
      | none =>
        exfalso
        rw [dijkstraShortest, if_pos hm, if_neg hsd, ← hfinal] at h
        revert h
        show (match tentLookup final.tent dst with
          | none => failSP
          | some (d, p) =>
            { success := true, path := p, totalWeight := d } : SPResult α).success =
            true → False
        rw [hl]
        simp [failSP]
      | some dp =>
        obtain ⟨d, p⟩ := dp
        have hres : dijkstraShortest nodes adj tie src dst =
            { success := true, path := p, totalWeight := d } := by
          rw [dijkstraShortest, if_pos hm, if_neg hsd, ← hfinal]
          show (match tentLookup final.tent dst with
            | none => failSP
            | some (d, p) => { success := true, path := p, totalWeight := d }) =
            { success := true, path := p, totalWeight := d }
          rw [hl]
        rw [hres]
        exact hsound (dst, d, p) (mem_of_tentLookup hl)
  · rw [dijkstraShortest, if_neg hm] at h
    simp [failSP] at h

theorem dijkstraShortest_fail {nodes : List α} {dst : α}
    (h : (dijkstraShortest nodes adj tie src dst).success = false) :
    dijkstraShortest nodes adj tie src dst = failSP := by
  by_cases hm : src ∈ nodes ∧ dst ∈ nodes
  · by_cases hsd : src = dst
    · subst hsd
      rw [dijkstraShortest, if_pos hm, if_pos rfl] at h
      simp at h
    · set final := dloop adj tie (nodes.length + 1)
        (⟨[], [(src, 0, [src])]⟩ : DState α) with hfinal
      cases hl : tentLookup final.tent dst with
      | none =>
        rw [dijkstraShortest, if_pos hm, if_neg hsd, ← hfinal]
        show (match tentLookup final.tent dst with
          | none => failSP
          | some (d, p) => { success := true, path := p, totalWeight := d }) = failSP
        rw [hl]
      | some dp =>
        obtain ⟨d, p⟩ := dp
        exfalso
        rw [dijkstraShortest, if_pos hm, if_neg hsd, ← hfinal] at h
        revert h
        show (match tentLookup final.tent dst with
          | none => failSP
          | some (d, p) =>
            { success := true, path := p, totalWeight := d } : SPResult α).success =
            false → False
        rw [hl]
        simp
  · rw [dijkstraShortest, if_neg hm]

end Soundness

section MapBridges

theorem neighbors_sub {g : MapGraph} {u : String} {e : Edge}
    (h : e ∈ g.neighbors u) : ∃ pr ∈ g.adjacency, e ∈ pr.2 := by
  rw [MapGraph.neighbors] at h
  cases hf : g.adjacency.find? (fun p => p.1 == u) with
  | none =>
    rw [hf] at h
    simp at h
  | some pr =>
    rw [hf] at h
    exact ⟨pr, List.mem_of_find?_eq_some hf, h⟩

theorem mapAdj_nonneg {g : MapGraph} (hwf : WFMap g) :
    ∀ u vw, vw ∈ mapAdj g u → 0 ≤ vw.2 := by
  intro u vw hvw
  rw [mapAdj] at hvw
  obtain ⟨e, he, rfl⟩ := List.mem_map.mp hvw
  obtain ⟨pr, hpr, hepr⟩ := neighbors_sub he
  exact (hwf.2 pr hpr e hepr).2

theorem mapAdj_closed {g : MapGraph} (hwf : WFMap g) :
    ∀ u vw, vw ∈ mapAdj g u → vw.1 ∈ g.nodeIds := by
  intro u vw hvw
  rw [mapAdj] at hvw
  obtain ⟨e, he, rfl⟩ := List.mem_map.mp hvw
  obtain ⟨pr, hpr, hepr⟩ := neighbors_sub he
  exact (hwf.2 pr hpr e hepr).1

end MapBridges

/-- C1: for every well-formed map graph and every pair of nodes (a, b) with b
reachable from a, `shortestPath(g, a, b)` succeeds and its totalWeight equals
the minimum, over all paths from a to b in the graph, of the sum of the edge
weights along the path: the returned weight is realised by the returned path
and is a lower bound on the weight of every path. -/
theorem shortestPath_optimal (g : MapGraph) (a b : String) (hwf : WFMap g)
    (ha : a ∈ g.nodeIds) (hreach : ∃ p d, PathW (mapAdj g) a b p d) :
    (shortestPath g a b).success = true ∧
    PathW (mapAdj g) a b (shortestPath g a b).path
      (shortestPath g a b).totalWeight ∧
    ∀ p d, PathW (mapAdj g) a b p d → (shortestPath g a b).totalWeight ≤ d := by
  obtain ⟨hs, hp, hmin⟩ :=
    @dijkstra_correct String _ g.nodeIds (mapAdj g) a strTie hwf.1
      (mapAdj_nonneg hwf) (mapAdj_closed hwf) ha b hreach
  exact ⟨hs, hp, fun p d h => hmin p d h⟩

/-- C1 witness: on the spec §8 fixture floor1, the route from A to C succeeds,
is realised by an actual path, and is minimal (in particular its weight is 5,
via B, not the direct weight-10 edge). -/
theorem shortestPath_optimal_witness :
    ((shortestPath exFloor1 "A" "C").success = true ∧
    PathW (mapAdj exFloor1) "A" "C" (shortestPath exFloor1 "A" "C").path
      (shortestPath exFloor1 "A" "C").totalWeight ∧
    ∀ p d, PathW (mapAdj exFloor1) "A" "C" p d →
      (shortestPath exFloor1 "A" "C").totalWeight ≤ d) ∧
    (shortestPath exFloor1 "A" "C").totalWeight = 5 ∧
    (shortestPath exFloor1 "A" "C").path = ["A", "B", "C"] := by
  refine ⟨shortestPath_optimal exFloor1 "A" "C" (by with_unfolding_all decide)
    (by decide) ?_, by with_unfolding_all decide, by with_unfolding_all decide⟩
  refine ⟨["A", "B", "C"], 2 + 3, ?_⟩
  have h1 : PathW (mapAdj exFloor1) "A" "A" ["A"] 0 := PathW.single "A"
  have h2 : PathW (mapAdj exFloor1) "A" "B" (["A"] ++ ["B"]) (0 + 2) :=
    PathW.snoc h1 (by with_unfolding_all decide)
  have h3 : PathW (mapAdj exFloor1) "A" "C" ((["A"] ++ ["B"]) ++ ["C"]) ((0 + 2) + 3) :=
    PathW.snoc h2 (by with_unfolding_all decide)
  have : (["A"] ++ ["B"]) ++ ["C"] = ["A", "B", "C"] := by decide
  rw [this] at h3
  have h0 : ((0 : ℚ) + 2) + 3 = 2 + 3 := by norm_num
  rw [h0] at h3
  exact h3

/-- C7: for every map graph g and every node a present in g,
`shortestPath(g, a, a)` succeeds and returns the single-waypoint path [a] with
total weight 0. -/
theorem shortestPath_self (g : MapGraph) (a : String) (ha : a ∈ g.nodeIds) :
    shortestPath g a a = { success := true, path := [a], totalWeight := 0 } := by
  rw [shortestPath, dijkstraShortest, if_pos ⟨ha, ha⟩, if_pos rfl]

/-- C7 witness: on the fixture floor1, `shortestPath` from B to B succeeds
with the single waypoint B and weight 0. -/
theorem shortestPath_self_witness :
    shortestPath exFloor1 "B" "B" =
      { success := true, path := ["B"], totalWeight := 0 } :=
  shortestPath_self exFloor1 "B" (by decide)

theorem find?_adj_map (nid : String) (f : String × List Edge → String × List Edge)
    (hf : ∀ p, (f p).1 = p.1) :
    ∀ l : List (String × List Edge),
    (l.map f).find? (fun p => p.1 == nid) =
      (l.find? (fun p => p.1 == nid)).map f := by
  intro l
  induction l with
  | nil => rfl
  | cons pr l ih =>
    rw [List.map_cons]
    by_cases h : (pr.1 == nid) = true
    · rw [List.find?_cons_of_pos (p := fun x => x.1 == nid) (List.map f l)
          (by rw [hf pr]; exact h : ((f pr).1 == nid) = true),
        List.find?_cons_of_pos (p := fun x => x.1 == nid) l h]
      rfl
    · rw [List.find?_cons_of_neg (p := fun x => x.1 == nid) (List.map f l)
          (by rw [hf pr]; exact h : ¬((f pr).1 == nid) = true),
        List.find?_cons_of_neg (p := fun x => x.1 == nid) l h, ih]

/-- C8: map-graph construction fails with InvalidGraph exactly when the raw
node list contains duplicate node ids; on success, an adjacency edge survives
iff it was present in the raw adjacency and its targetNodeId exists as a node
id of the same map (dangling edges are dropped, non-fatally); and a node with
no outgoing adjacency entry yields an empty neighbor sequence, not an error. -/
theorem build_validation (mapId : String) (rawNodes : List Node)
    (rawAdjacency : List (String × List Edge)) :
    ((∃ err, build mapId rawNodes rawAdjacency = Except.error err) ↔
      ¬(rawNodes.map (·.id)).Nodup) ∧
    (∀ g, build mapId rawNodes rawAdjacency = Except.ok g →
      (∀ nid e, e ∈ g.neighbors nid ↔
        (e ∈ (MapGraph.mk mapId rawNodes rawAdjacency).neighbors nid ∧
          e.targetNodeId ∈ rawNodes.map (·.id))) ∧
      (∀ nid, (∀ pr ∈ rawAdjacency, pr.1 ≠ nid) → g.neighbors nid = [])) := by
  constructor
  · constructor
    · rintro ⟨err, herr⟩ hnd
      rw [build] at herr
      simp only [if_pos hnd] at herr
      exact Except.noConfusion herr
    · intro hnd
      exact ⟨BuildError.invalidGraph, by rw [build]; simp only [if_neg hnd]⟩
  · intro g hg
    rw [build] at hg
    by_cases hnd : (rawNodes.map (·.id)).Nodup
    · simp only [if_pos hnd] at hg
      injection hg with hg2
      subst hg2
      constructor
      · intro nid e
        rw [MapGraph.neighbors, MapGraph.neighbors]
        dsimp only
        rw [find?_adj_map nid
          (fun p => (p.1, p.2.filter (fun e => e.targetNodeId ∈ rawNodes.map (·.id))))
          (fun p => rfl) rawAdjacency]
        cases hf : rawAdjacency.find? (fun p => p.1 == nid) with
        | none => simp
        | some pr =>
          show e ∈ pr.2.filter (fun e => e.targetNodeId ∈ rawNodes.map (·.id)) ↔ _
          rw [List.mem_filter]
          simp
      · intro nid hno
        rw [MapGraph.neighbors]
        dsimp only
        rw [find?_adj_map nid
          (fun p => (p.1, p.2.filter (fun e => e.targetNodeId ∈ rawNodes.map (·.id))))
          (fun p => rfl) rawAdjacency]
        have hf : rawAdjacency.find? (fun p => p.1 == nid) = none := by
          rw [List.find?_eq_none]
          intro pr hpr
          simpa using hno pr hpr
        rw [hf]
        rfl
    · rw [if_neg hnd] at hg
      exact Except.noConfusion hg

theorem chain'_of_forall {β : Type} {R : β → β → Prop} (h : ∀ a b, R a b) :
    ∀ l : List β, List.Chain' R l
  | [] => List.chain'_nil
  | [a] => List.chain'_singleton a
  | a :: b :: l => List.Chain'.cons (h a b) (chain'_of_forall h (b :: l))

theorem lookupMap_eq_some {maps : List MapGraph} {id : String} {g : MapGraph}
    (h : lookupMap maps id = some g) : g ∈ maps ∧ g.mapId = id := by
  refine ⟨List.mem_of_find?_eq_some h, ?_⟩
  have := List.find?_some h
  simpa using this

theorem lookupMap_of_mem_nodup {maps : List MapGraph}
    (hnd : (maps.map (·.mapId)).Nodup) {g : MapGraph} (hg : g ∈ maps) :
    lookupMap maps g.mapId = some g := by
  induction maps with
  | nil => simp at hg
  | cons m ms ih =>
    rw [List.map_cons, List.nodup_cons] at hnd
    rcases List.mem_cons.mp hg with rfl | hg
    · rw [lookupMap, List.find?_cons_of_pos _ (by simp)]
    · by_cases hid : m.mapId = g.mapId
      · exfalso
        apply hnd.1
        rw [hid]
        exact List.mem_map_of_mem _ hg
      · rw [lookupMap, List.find?_cons_of_neg _ (by simpa using hid)]
        exact ih hnd.2 hg

theorem lookupMap_perm {maps1 maps2 : List MapGraph}
    (h1 : (maps1.map (·.mapId)).Nodup) (hp : maps1.Perm maps2) (id : String) :
    lookupMap maps1 id = lookupMap maps2 id := by
  have h2 : (maps2.map (·.mapId)).Nodup := ((hp.map (·.mapId)).nodup_iff).mp h1
  cases hl : lookupMap maps1 id with
  | none =>
    rw [lookupMap, List.find?_eq_none] at hl
    rw [lookupMap, eq_comm, List.find?_eq_none]
    intro g hg
    exact hl g (hp.mem_iff.mpr hg)
  | some g =>
    obtain ⟨hmem, hid⟩ := lookupMap_eq_some hl
    rw [← hid]
    exact (lookupMap_of_mem_nodup h2 (hp.mem_iff.mp hmem)).symm

theorem resolve_perm {maps1 maps2 : List MapGraph}
    (h1 : (maps1.map (·.mapId)).Nodup) (hp : maps1.Perm maps2) (n : Node) :
    resolve n maps1 = resolve n maps2 := by
  cases hc : n.gatewayConfig with
  | none => rw [resolve, resolve, hc]
  | some cfg =>
    rw [resolve, resolve, hc]
    show (match lookupMap maps1 cfg.targetMapId with
      | none => none
      | some g =>
          if cfg.targetNodeId ∈ g.nodeIds then
            some (cfg.targetMapId, cfg.targetNodeId)
          else none) =
      (match lookupMap maps2 cfg.targetMapId with
      | none => none
      | some g =>
          if cfg.targetNodeId ∈ g.nodeIds then
            some (cfg.targetMapId, cfg.targetNodeId)
          else none)
    rw [lookupMap_perm h1 hp]

theorem globalAdj_perm {maps1 maps2 : List MapGraph}
    (h1 : (maps1.map (·.mapId)).Nodup) (hp : maps1.Perm maps2) (p : GId) :
    globalAdj maps1 p = globalAdj maps2 p := by
  have hl := lookupMap_perm h1 hp p.1
  have hr : ∀ n, resolve n maps1 = resolve n maps2 := resolve_perm h1 hp
  simp only [globalAdj, hl, hr]

theorem find?_node_of_mem_nodup :
    ∀ {l : List Node}, (l.map (·.id)).Nodup → ∀ {n : Node}, n ∈ l →
    l.find? (fun m => m.id == n.id) = some n := by
  intro l
  induction l with
  | nil => intro _ n hn; simp at hn
  | cons m ms ih =>
    intro hnd n hn
    rw [List.map_cons, List.nodup_cons] at hnd
    rcases List.mem_cons.mp hn with rfl | hn
    · rw [List.find?_cons_of_pos _ (by simp)]
    · by_cases hid : m.id = n.id
      · exfalso
        apply hnd.1
        rw [hid]
        exact List.mem_map_of_mem _ hn
      · rw [List.find?_cons_of_neg _ (by simpa using hid)]
        exact ih hnd.2 hn

theorem route_eq_sameMap_none {maps : List MapGraph} {sm sn dn : String}
    (hl : lookupMap maps sm = none) :
    route maps sm sn sm dn = emptyPathResult := by
  rw [route, if_pos rfl, hl]

theorem route_eq_sameMap_some {maps : List MapGraph} {sm sn dn : String}
    {g : MapGraph} (hl : lookupMap maps sm = some g)
    (hs : (shortestPath g sn dn).success = true) :
    route maps sm sn sm dn =
      mkResult ((shortestPath g sn dn).path.map (fun x => (sm, x)))
        (shortestPath g sn dn).totalWeight := by
  rw [route, if_pos rfl, hl]
  show (if (shortestPath g sn dn).success = true then
      mkResult ((shortestPath g sn dn).path.map (fun n => (sm, n)))
        (shortestPath g sn dn).totalWeight
    else emptyPathResult) = _
  rw [if_pos hs]

theorem route_eq_sameMap_fail {maps : List MapGraph} {sm sn dn : String}
    {g : MapGraph} (hl : lookupMap maps sm = some g)
    (hs : ¬(shortestPath g sn dn).success = true) :
    route maps sm sn sm dn = emptyPathResult := by
  rw [route, if_pos rfl, hl]
  show (if (shortestPath g sn dn).success = true then
      mkResult ((shortestPath g sn dn).path.map (fun n => (sm, n)))
        (shortestPath g sn dn).totalWeight
    else emptyPathResult) = _
  rw [if_neg hs]

theorem route_eq_global_success {maps : List MapGraph} {sm sn dm dn : String}
    (hsd : sm ≠ dm)
    (hs : (dijkstraShortest (globalNodes maps) (globalAdj maps) gidTie
      (sm, sn) (dm, dn)).success = true) :
    route maps sm sn dm dn =
      mkResult (dijkstraShortest (globalNodes maps) (globalAdj maps) gidTie
        (sm, sn) (dm, dn)).path
        (dijkstraShortest (globalNodes maps) (globalAdj maps) gidTie
          (sm, sn) (dm, dn)).totalWeight := by
  rw [route, if_neg hsd]
  show (if (dijkstraShortest (globalNodes maps) (globalAdj maps) gidTie
      (sm, sn) (dm, dn)).success = true then _ else emptyPathResult) = _
  rw [if_pos hs]

theorem route_eq_global_fail {maps : List MapGraph} {sm sn dm dn : String}
    (hsd : sm ≠ dm)
    (hs : ¬(dijkstraShortest (globalNodes maps) (globalAdj maps) gidTie
      (sm, sn) (dm, dn)).success = true) :
    route maps sm sn dm dn = emptyPathResult := by
  rw [route, if_neg hsd]
  show (if (dijkstraShortest (globalNodes maps) (globalAdj maps) gidTie
      (sm, sn) (dm, dn)).success = true then
      mkResult (dijkstraShortest (globalNodes maps) (globalAdj maps) gidTie
        (sm, sn) (dm, dn)).path
        (dijkstraShortest (globalNodes maps) (globalAdj maps) gidTie
          (sm, sn) (dm, dn)).totalWeight
    else emptyPathResult) = _
  rw [if_neg hs]

theorem route_cases (maps : List MapGraph) (sm sn dm dn : String) :
    route maps sm sn dm dn = emptyPathResult ∨
    (∃ g, sm = dm ∧ lookupMap maps sm = some g ∧
      (shortestPath g sn dn).success = true ∧
      route maps sm sn dm dn =
        mkResult ((shortestPath g sn dn).path.map (fun x => (sm, x)))
          (shortestPath g sn dn).totalWeight) ∨
    (sm ≠ dm ∧
      (dijkstraShortest (globalNodes maps) (globalAdj maps) gidTie
        (sm, sn) (dm, dn)).success = true ∧
      route maps sm sn dm dn =
        mkResult (dijkstraShortest (globalNodes maps) (globalAdj maps) gidTie
          (sm, sn) (dm, dn)).path
          (dijkstraShortest (globalNodes maps) (globalAdj maps) gidTie
            (sm, sn) (dm, dn)).totalWeight) := by
  by_cases hsd : sm = dm
  · subst hsd
    cases hl : lookupMap maps sm with
    | none => exact Or.inl (route_eq_sameMap_none hl)
    | some g =>
      by_cases hs : (shortestPath g sn dn).success = true
      · exact Or.inr (Or.inl ⟨g, rfl, rfl, hs, route_eq_sameMap_some hl hs⟩)
      · exact Or.inl (route_eq_sameMap_fail hl hs)
  · by_cases hs : (dijkstraShortest (globalNodes maps) (globalAdj maps) gidTie
        (sm, sn) (dm, dn)).success = true
    · exact Or.inr (Or.inr ⟨hsd, hs, route_eq_global_success hsd hs⟩)
    · exact Or.inl (route_eq_global_fail hsd hs)

theorem globalAdj_eq {maps : List MapGraph} {g : MapGraph} {nid : String}
    (hl : lookupMap maps g.mapId = some g) :
    globalAdj maps (g.mapId, nid) =
      (g.neighbors nid).map (fun e => ((g.mapId, e.targetNodeId), e.weight)) ++
      (match g.nodes.find? (fun m => m.id == nid) with
       | none => []
       | some m =>
         if m.type = NodeType.GATEWAY then
           match resolve m maps with
           | none => []
           | some t => [(t, gatewayTransitionWeight)]
         else []) := by
  simp only [globalAdj, hl]

/-- C5: compose and route are deterministic pure functions of their inputs:
on identical map sets (equal as sets — permutations of one another, map ids
unique) the composed Global Graphs have identical edge sets, and route with
unchanged inputs returns an identical PathResult: there is no hidden state,
the result is a function of the arguments alone. -/
theorem compose_deterministic (maps1 maps2 : List MapGraph)
    (h1 : (maps1.map (·.mapId)).Nodup) (hp : maps1.Perm maps2) :
    (∀ p q w, GEdge maps1 p q w ↔ GEdge maps2 p q w) ∧
    (∀ sm sn dm dn, route maps1 sm sn dm dn = route maps1 sm sn dm dn) := by
  refine ⟨?_, fun _ _ _ _ => rfl⟩
  intro p q w
  rw [GEdge, GEdge, globalAdj_perm h1 hp]

/-- C5 witness: reordering the two fixture maps leaves the gateway edge in the
Global Graph, and repeating a route call gives an identical result. -/
theorem compose_deterministic_witness :
    GEdge [exBuildingA, exCampus] ("campus", "entrance_a") ("building_a", "lobby")
      gatewayTransitionWeight ∧
    route [exCampus, exBuildingA] "campus" "entrance_a" "building_a" "room_101" =
      route [exCampus, exBuildingA] "campus" "entrance_a" "building_a" "room_101" := by
  have h := compose_deterministic [exCampus, exBuildingA] [exBuildingA, exCampus]
    (by decide) (by with_unfolding_all decide)
  exact ⟨(h.1 ("campus", "entrance_a") ("building_a", "lobby")
      gatewayTransitionWeight).mp (by with_unfolding_all decide),
    h.2 "campus" "entrance_a" "building_a" "room_101"⟩

/-- C2: a GATEWAY node whose gatewayConfig names a map absent from the
supplied map set, or a node absent from the named map, resolves to none
(without throwing), contributes no cross-map edge to the Global Graph, and no
route ever traverses it: in every route result, a waypoint at that gateway is
never followed by a waypoint on another map. -/
theorem unresolved_gateway_inert (maps : List MapGraph) (hwf : WFMaps maps)
    (g : MapGraph) (hg : g ∈ maps) (n : Node) (hn : n ∈ g.nodes)
    (hty : n.type = NodeType.GATEWAY) (cfg : GatewayConfig)
    (hcfg : n.gatewayConfig = some cfg)
    (habs : lookupMap maps cfg.targetMapId = none ∨
      ∀ g2, lookupMap maps cfg.targetMapId = some g2 →
        cfg.targetNodeId ∉ g2.nodeIds) :
    resolve n maps = none ∧
    (∀ q w, GEdge maps (g.mapId, n.id) q w → q.1 = g.mapId) ∧
    (∀ sm sn dm dn, List.Chain'
      (fun x y => x = (g.mapId, n.id) → y.1 = g.mapId)
      (route maps sm sn dm dn).waypoints) := by
  have hl : lookupMap maps g.mapId = some g := lookupMap_of_mem_nodup hwf.1 hg
  have hfind : g.nodes.find? (fun m => m.id == n.id) = some n :=
    find?_node_of_mem_nodup (hwf.2 g hg).1 hn
  have hres : resolve n maps = none := by
    rcases habs with habs | habs
    · rw [resolve, hcfg]
      show (match lookupMap maps cfg.targetMapId with
        | none => none
        | some g2 =>
            if cfg.targetNodeId ∈ g2.nodeIds then
              some (cfg.targetMapId, cfg.targetNodeId)
            else none) = none
      rw [habs]
    · rw [resolve, hcfg]
      show (match lookupMap maps cfg.targetMapId with
        | none => none
        | some g2 =>
            if cfg.targetNodeId ∈ g2.nodeIds then
              some (cfg.targetMapId, cfg.targetNodeId)
            else none) = none
      cases hlt : lookupMap maps cfg.targetMapId with
      | none => rfl
      | some g2 =>
        show (if cfg.targetNodeId ∈ g2.nodeIds then
            some (cfg.targetMapId, cfg.targetNodeId)
          else none) = none
        rw [if_neg (habs g2 hlt)]
  have hedge : ∀ q w, GEdge maps (g.mapId, n.id) q w → q.1 = g.mapId := by
    intro q w h
    rw [GEdge, globalAdj_eq hl] at h
    simp only [hfind, hty, if_true, hres, List.append_nil, List.mem_map] at h
    obtain ⟨e, he, heq⟩ := h
    have : ((g.mapId, e.targetNodeId), e.weight).1.1 = q.1 := by rw [heq]
    exact this.symm
  refine ⟨hres, hedge, ?_⟩
  intro sm sn dm dn
  rcases route_cases maps sm sn dm dn with hroute | ⟨g2, hsd, hl2, hs, hroute⟩ |
    ⟨hsd, hs, hroute⟩
  · rw [hroute]
    exact List.chain'_nil
  · rw [hroute]
    show List.Chain' _ ((shortestPath g2 sn dn).path.map (fun x => (sm, x)))
    rw [List.chain'_map]
    apply chain'_of_forall
    intro a b hab
    have : sm = g.mapId := congrArg Prod.fst hab
    exact this ▸ rfl
  · rw [hroute]
    show List.Chain' _ (dijkstraShortest (globalNodes maps) (globalAdj maps)
      gidTie (sm, sn) (dm, dn)).path
    obtain ⟨_, _, hpw⟩ := dijkstraShortest_success_sound hs
    refine (hpw.chain).imp ?_
    intro x y hxy hx
    obtain ⟨w, hw⟩ := hxy
    rw [hx] at hw
    exact hedge y w hw

theorem chunkSegments_nil_iff : ∀ ws : List GId, chunkSegments ws = [] ↔ ws = [] := by
  intro ws
  cases ws with
  | nil => simp [chunkSegments]
  | cons w ws =>
    rw [chunkSegments]
    cases chunkSegments ws with
    | nil => simp
    | cons s ss =>
      by_cases h : s.mapId = w.1 <;> simp [h]

theorem chunkSegments_join : ∀ ws : List GId,
    ((chunkSegments ws).map MapSegment.waypoints).flatten = ws := by
  intro ws
  induction ws with
  | nil => rfl
  | cons w ws ih =>
    rw [chunkSegments]
    cases hcs : chunkSegments ws with
    | nil =>
      obtain rfl := (chunkSegments_nil_iff ws).mp hcs
      rfl
    | cons s ss =>
      rw [hcs] at ih
      dsimp only
      by_cases h : s.mapId = w.1
      · rw [if_pos h]
        rw [List.map_cons, List.flatten] at ih ⊢
        rw [← ih]
        rfl
      · rw [if_neg h]
        rw [List.map_cons, List.flatten] at ih ⊢
        rw [List.map_cons, List.flatten, ← ih]
        rfl

theorem chunkSegments_homog : ∀ ws : List GId, ∀ s ∈ chunkSegments ws,
    s.waypoints ≠ [] ∧ ∀ x ∈ s.waypoints, x.1 = s.mapId := by
  intro ws
  induction ws with
  | nil => intro s hs; simp [chunkSegments] at hs
  | cons w ws ih =>
    intro s hs
    rw [chunkSegments] at hs
    cases hcs : chunkSegments ws with
    | nil =>
      rw [hcs] at hs
      rcases List.mem_singleton.mp hs with rfl
      exact ⟨by simp, by simp⟩
    | cons t ss =>
      rw [hcs] at hs ih
      dsimp only at hs
      by_cases h : t.mapId = w.1
      · rw [if_pos h] at hs
        rcases List.mem_cons.mp hs with rfl | hs
        · obtain ⟨hne, hhom⟩ := ih t (List.mem_cons_self _ _)
          refine ⟨by simp, ?_⟩
          intro x hx
          rcases List.mem_cons.mp hx with rfl | hx
          · exact h.symm
          · exact hhom x hx
        · exact ih s (List.mem_cons_of_mem _ hs)
      · rw [if_neg h] at hs
        rcases List.mem_cons.mp hs with rfl | hs
        · exact ⟨by simp, by simp⟩
        · exact ih s hs

theorem chunkSegments_chain_ne : ∀ ws : List GId,
    List.Chain' (fun s t => s.mapId ≠ t.mapId) (chunkSegments ws) := by
  intro ws
  induction ws with
  | nil => exact List.chain'_nil
  | cons w ws ih =>
    rw [chunkSegments]
    cases hcs : chunkSegments ws with
    | nil => exact List.chain'_singleton _
    | cons t ss =>
      rw [hcs] at ih
      dsimp only
      by_cases h : t.mapId = w.1
      · rw [if_pos h]
        cases ss with
        | nil => exact List.chain'_singleton _
        | cons u ss2 =>
          rw [List.chain'_cons] at ih ⊢
          exact ⟨ih.1, ih.2⟩
      · rw [if_neg h]
        rw [List.chain'_cons]
        exact ⟨fun he => h he.symm, ih⟩

theorem getLast?_cons_ne_nil {w : GId} : ∀ {l : List GId}, l ≠ [] →
    (w :: l).getLast? = l.getLast? := by
  intro l hl
  cases l with
  | nil => exact absurd rfl hl
  | cons x xs => rw [List.getLast?_cons_cons]

theorem head?_chunk_head {ws : List GId} {s : MapSegment} {ss : List MapSegment}
    (hcs : chunkSegments ws = s :: ss) : ws.head? = s.waypoints.head? := by
  have hj := chunkSegments_join ws
  rw [hcs, List.map_cons, List.flatten] at hj
  have hne : s.waypoints ≠ [] := (chunkSegments_homog ws s (by rw [hcs]; exact List.mem_cons_self _ _)).1
  cases hw : s.waypoints with
  | nil => exact absurd hw hne
  | cons x xs =>
    rw [hw] at hj
    rw [← hj]
    rfl

theorem chunkSegments_chain_rel {R : GId → GId → Prop} : ∀ ws : List GId,
    List.Chain' R ws →
    List.Chain' (fun s t => ∃ x y, s.waypoints.getLast? = some x ∧
      t.waypoints.head? = some y ∧ R x y) (chunkSegments ws) := by
  intro ws
  induction ws with
  | nil => intro _; exact List.chain'_nil
  | cons w ws ih =>
    intro hchain
    have htail : List.Chain' R ws := hchain.tail
    rw [chunkSegments]
    cases hcs : chunkSegments ws with
    | nil => exact List.chain'_singleton _
    | cons t ss =>
      have iht := ih htail
      rw [hcs] at iht
      have hthom := chunkSegments_homog ws t (by rw [hcs]; exact List.mem_cons_self _ _)
      have hhead : ws.head? = t.waypoints.head? := head?_chunk_head hcs
      dsimp only
      by_cases h : t.mapId = w.1
      · rw [if_pos h]
        cases ss with
        | nil => exact List.chain'_singleton _
        | cons u ss2 =>
          rw [List.chain'_cons] at iht ⊢
          obtain ⟨⟨x, y, hx, hy, hr⟩, hrest⟩ := iht
          exact ⟨⟨x, y, by rw [getLast?_cons_ne_nil hthom.1]; exact hx, hy, hr⟩, hrest⟩
      · rw [if_neg h]
        rw [List.chain'_cons]
        refine ⟨?_, iht⟩
        have hne : t.waypoints ≠ [] := hthom.1
        cases hw : t.waypoints with
        | nil => exact absurd hw hne
        | cons y ys =>
          refine ⟨w, y, rfl, rfl, ?_⟩
          have : ws.head? = some y := by rw [hhead, hw]; rfl
          cases ws with
          | nil => simp at this
          | cons w2 ws2 =>
            have hw2 : w2 = y := by simpa using this
            rw [List.chain'_cons] at hchain
            exact hw2 ▸ hchain.1

theorem globalAdj_cross {maps : List MapGraph} {p q : GId} {w : ℚ}
    (h : (q, w) ∈ globalAdj maps p) (hne : q.1 ≠ p.1) :
    w = gatewayTransitionWeight := by
  simp only [globalAdj] at h
  cases hl : lookupMap maps p.1 with
  | none =>
    simp only [hl] at h
    simp at h
  | some g =>
    simp only [hl] at h
    rcases List.mem_append.mp h with h | h
    · obtain ⟨e, he, heq⟩ := List.mem_map.mp h
      exfalso
      apply hne
      have : ((p.1, e.targetNodeId), e.weight).1.1 = (q, w).1.1 := by rw [heq]
      exact this.symm
    · cases hf : g.nodes.find? (fun m => m.id == p.2) with
      | none =>
        rw [hf] at h
        simp at h
      | some m =>
        rw [hf] at h
        dsimp only at h
        by_cases ht : m.type = NodeType.GATEWAY
        · rw [if_pos ht] at h
          cases hr : resolve m maps with
          | none =>
            rw [hr] at h
            simp at h
          | some tgt =>
            rw [hr] at h
            have := List.mem_singleton.mp h
            have hw : (q, w).2 = (tgt, gatewayTransitionWeight).2 := by rw [this]
            exact hw
        · rw [if_neg ht] at h
          simp at h

theorem chunkSegments_const {sm : String} : ∀ (p : List String), p ≠ [] →
    chunkSegments (p.map (fun x => (sm, x))) =
      [⟨sm, p.map (fun x => (sm, x))⟩] := by
  intro p
  induction p with
  | nil => intro h; exact absurd rfl h
  | cons x xs ih =>
    intro _
    cases xs with
    | nil => rfl
    | cons y ys =>
      rw [List.map_cons, chunkSegments, ih (by simp)]
      dsimp only
      rw [if_pos rfl]

theorem chain'_and {β : Type} {R S : β → β → Prop} :
    ∀ {l : List β}, List.Chain' R l → List.Chain' S l →
    List.Chain' (fun a b => R a b ∧ S a b) l := by
  intro l
  induction l with
  | nil => intro _ _; exact List.chain'_nil
  | cons a l ih =>
    intro hr hs
    cases l with
    | nil => exact List.chain'_singleton a
    | cons b l2 =>
      rw [List.chain'_cons] at hr hs ⊢
      exact ⟨⟨hr.1, hs.1⟩, ih hr.2 hs.2⟩

theorem chain'_imp_mem {β : Type} {R S : β → β → Prop} :
    ∀ {l : List β}, (∀ a ∈ l, ∀ b ∈ l, R a b → S a b) →
    List.Chain' R l → List.Chain' S l := by
  intro l
  induction l with
  | nil => intro _ _; exact List.chain'_nil
  | cons a l ih =>
    intro himp hr
    cases l with
    | nil => exact List.chain'_singleton a
    | cons b l2 =>
      rw [List.chain'_cons] at hr ⊢
      refine ⟨himp a (List.mem_cons_self _ _)
        b (List.mem_cons_of_mem _ (List.mem_cons_self _ _)) hr.1, ?_⟩
      exact ih (fun x hx y hy hxy =>
        himp x (List.mem_cons_of_mem _ hx) y (List.mem_cons_of_mem _ hy) hxy) hr.2

theorem segJoined_of_chain (maps : List MapGraph) (ws : List GId)
    (h : List.Chain' (fun x y => x.1 ≠ y.1 →
      GEdge maps x y gatewayTransitionWeight) ws) :
    List.Chain' (segJoined maps) (chunkSegments ws) := by
  have hcomb := chain'_and (chunkSegments_chain_rel ws h) (chunkSegments_chain_ne ws)
  refine chain'_imp_mem ?_ hcomb
  rintro s hsmem t htmem ⟨⟨x, y, hx, hy, hr⟩, hne⟩
  obtain ⟨hsne, hshom⟩ := chunkSegments_homog ws s hsmem
  obtain ⟨htne, hthom⟩ := chunkSegments_homog ws t htmem
  have hx1 : x.1 = s.mapId := hshom x (List.mem_of_getLast?_eq_some hx)
  have hy1 : y.1 = t.mapId := hthom y (List.mem_of_mem_head? hy)
  have hxy : x.1 ≠ y.1 := by
    rw [hx1, hy1]
    exact hne
  exact ⟨x, y, hx, hy, hxy, hr hxy⟩

/-- C3: for every successful PathResult, the segments are obtained by
run-length grouping of the waypoints on mapId: concatenating the segments'
waypoint sub-sequences in order yields exactly the full waypoint sequence
(every waypoint in exactly one segment, order preserved), every segment is
nonempty and mapId-homogeneous (so adjacent waypoints with equal mapId share a
segment), consecutive segments lie on different maps, and each pair of
consecutive segments is joined by exactly one gateway edge of the Global
Graph. -/
theorem segments_partition (maps : List MapGraph) (sm sn dm dn : String)
    (hs : (route maps sm sn dm dn).success = true) :
    (((route maps sm sn dm dn).segments.map MapSegment.waypoints).flatten =
      (route maps sm sn dm dn).waypoints) ∧
    (∀ s ∈ (route maps sm sn dm dn).segments,
      s.waypoints ≠ [] ∧ ∀ x ∈ s.waypoints, x.1 = s.mapId) ∧
    List.Chain' (fun s t => s.mapId ≠ t.mapId)
      (route maps sm sn dm dn).segments ∧
    List.Chain' (segJoined maps) (route maps sm sn dm dn).segments := by
  rcases route_cases maps sm sn dm dn with hroute | ⟨g, hsd, hl, hsp, hroute⟩ |
    ⟨hsd, hsp, hroute⟩
  · rw [hroute] at hs
    exact absurd hs (by simp [emptyPathResult])
  · rw [hroute]
    refine ⟨chunkSegments_join _, chunkSegments_homog _, chunkSegments_chain_ne _, ?_⟩
    apply segJoined_of_chain
    rw [List.chain'_map]
    exact chain'_of_forall (fun a b hab => absurd rfl hab) _
  · rw [hroute]
    refine ⟨chunkSegments_join _, chunkSegments_homog _, chunkSegments_chain_ne _, ?_⟩
    apply segJoined_of_chain
    obtain ⟨_, _, hpw⟩ := dijkstraShortest_success_sound hsp
    refine hpw.chain.imp ?_
    rintro x y ⟨w, hw⟩ hne
    have hwg : w = gatewayTransitionWeight := globalAdj_cross hw (Ne.symm hne)
    rw [hwg] at hw
    exact hw

/-- C3 witness: on the spec §8 cross-map fixture, the successful route's
segments partition its waypoints, are homogeneous and nonempty, alternate
maps, and are joined by gateway edges. -/
theorem segments_partition_witness :
    (((route [exCampus, exBuildingA] "campus" "entrance_a" "building_a"
        "room_101").segments.map MapSegment.waypoints).flatten =
      (route [exCampus, exBuildingA] "campus" "entrance_a" "building_a"
        "room_101").waypoints) ∧
    (∀ s ∈ (route [exCampus, exBuildingA] "campus" "entrance_a" "building_a"
        "room_101").segments,
      s.waypoints ≠ [] ∧ ∀ x ∈ s.waypoints, x.1 = s.mapId) ∧
    List.Chain' (fun s t => s.mapId ≠ t.mapId)
      (route [exCampus, exBuildingA] "campus" "entrance_a" "building_a"
        "room_101").segments ∧
    List.Chain' (segJoined [exCampus, exBuildingA])
      (route [exCampus, exBuildingA] "campus" "entrance_a" "building_a"
        "room_101").segments :=
  segments_partition [exCampus, exBuildingA] "campus" "entrance_a" "building_a"
    "room_101" (by with_unfolding_all decide)

/-- C6: a route whose source and destination maps coincide is answered by the
Single-Map Router on that one map graph alone: a missing map or a failed
single-map search gives the empty failure result, and a successful single-map
search is wrapped verbatim as a PathResult with exactly one segment. -/
theorem route_sameMap_delegates (maps : List MapGraph) (sm sn dn : String) :
    (lookupMap maps sm = none → route maps sm sn sm dn = emptyPathResult) ∧
    ∀ g, lookupMap maps sm = some g →
      ((shortestPath g sn dn).success = false →
        route maps sm sn sm dn = emptyPathResult) ∧
      ((shortestPath g sn dn).success = true →
        route maps sm sn sm dn =
          mkResult ((shortestPath g sn dn).path.map (fun x => (sm, x)))
            (shortestPath g sn dn).totalWeight ∧
        (route maps sm sn sm dn).segments =
          [⟨sm, (route maps sm sn sm dn).waypoints⟩]) := by
  refine ⟨route_eq_sameMap_none, ?_⟩
  intro g hl
  constructor
  · intro hf
    exact route_eq_sameMap_fail hl (by rw [hf]; simp)
  · intro ht
    have heq := route_eq_sameMap_some hl ht
    refine ⟨heq, ?_⟩
    rw [heq]
    have hpath : (shortestPath g sn dn).path ≠ [] := by
      obtain ⟨_, _, hpw⟩ := dijkstraShortest_success_sound ht
      exact hpw.ne_nil
    show chunkSegments ((shortestPath g sn dn).path.map (fun x => (sm, x))) =
      [⟨sm, (shortestPath g sn dn).path.map (fun x => (sm, x))⟩]
    rw [chunkSegments_const _ hpath]

/-- C6 witness: on the fixture floor1, the same-map route from A to C is
exactly the wrapped Single-Map Router answer, with a single segment. -/
theorem route_sameMap_delegates_witness :
    route [exFloor1] "floor1" "A" "floor1" "C" =
      mkResult ((shortestPath exFloor1 "A" "C").path.map (fun x => ("floor1", x)))
        (shortestPath exFloor1 "A" "C").totalWeight ∧
    (route [exFloor1] "floor1" "A" "floor1" "C").segments =
      [⟨"floor1", (route [exFloor1] "floor1" "A" "floor1" "C").waypoints⟩] :=
  ((route_sameMap_delegates [exFloor1] "floor1" "A" "C").2 exFloor1
    (by with_unfolding_all decide)).2 (by with_unfolding_all decide)

theorem mem_globalNodes {maps : List MapGraph} {g : MapGraph} {sm sn : String}
    (hg : g ∈ maps) (hid : g.mapId = sm) (hn : sn ∈ g.nodeIds) :
    (sm, sn) ∈ globalNodes maps := by
  rw [globalNodes, List.mem_flatMap]
  refine ⟨g, hg, ?_⟩
  rw [MapGraph.nodeIds] at hn
  obtain ⟨node, hnode, hnid⟩ := List.mem_map.mp hn
  exact List.mem_map.mpr ⟨node, hnode, by rw [hnid, hid]⟩

/-- C4: whenever the supplied source or destination (mapId, nodeId) does not
exist in the supplied map set, or the destination is unreachable from the
source in the graph the route consults, `route` returns success = false with
an empty path — absence of an endpoint is surfaced exactly like no-route, and
no exception is raised (the function is total); likewise `shortestPath`
itself returns the plain failure result (success = false, empty path) on any
single map whenever either endpoint id is absent from that map or no walk
joins them. -/
theorem route_failure (maps : List MapGraph) (sm sn dm dn : String)
    (h : ¬(endpointExists maps (sm, sn) ∧ endpointExists maps (dm, dn) ∧
      routeReachable maps sm sn dm dn)) :
    (route maps sm sn dm dn).success = false ∧
    (route maps sm sn dm dn).waypoints = [] ∧
    (∀ (g : MapGraph) (a b : String),
      ¬(a ∈ g.nodeIds ∧ b ∈ g.nodeIds ∧ ∃ p d, PathW (mapAdj g) a b p d) →
        shortestPath g a b = failSP) := by
  have hsp3 : ∀ (g : MapGraph) (a b : String),
      ¬(a ∈ g.nodeIds ∧ b ∈ g.nodeIds ∧ ∃ p d, PathW (mapAdj g) a b p d) →
        shortestPath g a b = failSP := by
    intro g a b hn
    cases hs : (shortestPath g a b).success with
    | true =>
      exfalso
      apply hn
      rw [shortestPath] at hs
      obtain ⟨ha, hb, hpw⟩ := dijkstraShortest_success_sound hs
      exact ⟨ha, hb, _, _, hpw⟩
    | false =>
      rw [shortestPath] at hs ⊢
      exact dijkstraShortest_fail hs
  rcases route_cases maps sm sn dm dn with hroute | ⟨g, hsd, hl, hsp, hroute⟩ |
    ⟨hsd, hsp, hroute⟩
  · rw [hroute]
    exact ⟨rfl, rfl, hsp3⟩
  · exfalso
    apply h
    subst hsd
    obtain ⟨hsrc, hdst, hpw⟩ := dijkstraShortest_success_sound hsp
    obtain ⟨hgmem, hgid⟩ := lookupMap_eq_some hl
    refine ⟨mem_globalNodes hgmem hgid hsrc, mem_globalNodes hgmem hgid hdst, ?_⟩
    rw [routeReachable, if_pos rfl]
    exact ⟨g, hl, _, _, hpw⟩
  · exfalso
    apply h
    obtain ⟨hsrc, hdst, hpw⟩ := dijkstraShortest_success_sound hsp
    refine ⟨hsrc, hdst, ?_⟩
    rw [routeReachable, if_neg hsd]
    exact ⟨_, _, hpw⟩

/-- C4 witness: asking for the nonexistent node Z of map floor1 yields
success = false with an empty path from `route`, and `shortestPath` on the
map itself answers with the plain failure result, the same shape as a
no-route outcome. -/
theorem route_failure_witness :
    (route [exFloor1] "floor1" "A" "floor1" "Z").success = false ∧
    (route [exFloor1] "floor1" "A" "floor1" "Z").waypoints = [] ∧
    shortestPath exFloor1 "A" "Z" = failSP := by
  have h := route_failure [exFloor1] "floor1" "A" "floor1" "Z"
    (fun hc => absurd hc.2.1 (by with_unfolding_all decide))
  exact ⟨h.1, h.2.1, h.2.2 exFloor1 "A" "Z" (fun hc => absurd hc.2.1 (by decide))⟩

/-- C2 witness: the fixture gateway whose config names the absent map
"nowhere" resolves to none, and the route that would need it never steps from
the gateway onto another map. -/
theorem unresolved_gateway_inert_witness :
    resolve exBadGateway [exCampus2, exBuildingA] = none ∧
    List.Chain' (fun x y => x = ("campus2", "bad_gw") → y.1 = "campus2")
      (route [exCampus2, exBuildingA] "campus2" "bad_gw" "building_a"
        "room_101").waypoints := by
  have h := unresolved_gateway_inert [exCampus2, exBuildingA]
    (by with_unfolding_all decide) exCampus2 (by decide) exBadGateway (by decide)
    rfl ⟨"nowhere", "x"⟩ rfl (Or.inl (by decide))
  exact ⟨h.1, h.2.2 "campus2" "bad_gw" "building_a" "room_101"⟩

/-- C8 witness: duplicate node ids make `build` fail; on a two-node map with a
dangling edge A→Z, the A→B edge survives, the dangling edge is dropped, and
the edgeless node B gets an empty neighbor sequence. -/
theorem build_validation_witness :
    (∃ err, build "m" [exNodeA, exNodeA] [] = Except.error err) ∧
    (⟨"B", 2⟩ : Edge) ∈
      (MapGraph.mk "m" [exNodeA, exNodeB] [("A", [⟨"B", 2⟩])]).neighbors "A" ∧
    (⟨"Z", 1⟩ : Edge) ∉
      (MapGraph.mk "m" [exNodeA, exNodeB] [("A", [⟨"B", 2⟩])]).neighbors "A" ∧
    (MapGraph.mk "m" [exNodeA, exNodeB] [("A", [⟨"B", 2⟩])]).neighbors "B" = [] := by
  have hb : build "m" [exNodeA, exNodeB] [("A", [⟨"B", 2⟩, ⟨"Z", 1⟩])] =
      Except.ok (MapGraph.mk "m" [exNodeA, exNodeB] [("A", [⟨"B", 2⟩])]) := by
    with_unfolding_all rfl
  obtain ⟨hiff, hempty⟩ :=
    (build_validation "m" [exNodeA, exNodeB] [("A", [⟨"B", 2⟩, ⟨"Z", 1⟩])]).2 _ hb
  refine ⟨(build_validation "m" [exNodeA, exNodeA] []).1.mpr (by decide),
    (hiff "A" ⟨"B", 2⟩).mpr ⟨by with_unfolding_all decide, by decide⟩,
    fun hin => absurd ((hiff "A" ⟨"Z", 1⟩).mp hin).2 (by decide),
    hempty "B" (by decide)⟩

section NearestHelpers

theorem head?_orderedInsert {β : Type} (f : β → WithTop Nat) (x : β) (l : List β) :
    (List.orderedInsert (fun a b => f a ≤ f b) x l).head? =
      some (match l.head? with
            | none => x
            | some y => if f x ≤ f y then x else y) := by
  cases l with
  | nil => rfl
  | cons b t =>
    by_cases h : f x ≤ f b
    · simp [List.orderedInsert, h]
    · simp [List.orderedInsert, h]

theorem head?_insertionSort_firstMinBy {β : Type} (f : β → WithTop Nat) (l : List β) :
    (l.insertionSort (fun a b => f a ≤ f b)).head? = firstMinBy f l := by
  induction l with
  | nil => rfl
  | cons x xs ih =>
    simp only [List.insertionSort]
    rw [head?_orderedInsert, ih]
    cases hx : firstMinBy f xs with
    | none => simp only [firstMinBy, hx]
    | some y =>
      simp only [firstMinBy, hx]
      by_cases h : f x ≤ f y
      · simp [h]
      · simp [h]

theorem head?_sortPairs {β : Type} (l : List (β × WithTop Nat)) :
    (l.insertionSort (fun a b => a.2 ≤ b.2)).head? = firstMinBy (fun p => p.2) l :=
  head?_insertionSort_firstMinBy _ l

theorem firstMinBy_map_pair {β : Type} (f : β → WithTop Nat) (l : List β) :
    firstMinBy (fun p => p.2) (l.map (fun m => (m, f m))) =
      (firstMinBy f l).map (fun m => (m, f m)) := by
  induction l with
  | nil => rfl
  | cons x xs ih =>
    simp only [List.map_cons, firstMinBy, ih]
    cases hx : firstMinBy f xs with
    | none => rfl
    | some y =>
      by_cases h : f x ≤ f y
      · simp [h]
      · simp [h]

end NearestHelpers

/-- C9: the chatbot's and the navigate page's "nearest" ranking uses
`PathResult.totalNodes` (the waypoint count) as the distance metric, not
`totalWeight`: with a selected start and at least two candidates,
`findNearestNodeByCategory` returns the first candidate minimising
`matchDistance` in map-iteration order; a candidate whose route fails gets
distance `⊤` (Infinity) while a successful route contributes its
`totalNodes`; with no start selected or at most one candidate the first match
in map-iteration order is returned regardless of distance; the result depends
on the pathfinder only through `success` and `totalNodes` (so never on
`totalWeight`); and `calculateDistance` is `none` on failure and
`some totalNodes` on success. -/
theorem nearest_by_totalNodes :
    (∀ nav fm fn maps c, 2 ≤ (allCategoryMatches maps c).length →
      findNearestNodeByCategory nav (some fm) (some fn) maps c =
        firstMinBy (matchDistance nav fm fn) (allCategoryMatches maps c))
    ∧ (∀ nav fm fn (m : Node × MapGraph),
        (nav fm fn m.2.mapId m.1.id).success = false → matchDistance nav fm fn m = ⊤)
    ∧ (∀ nav fm fn (m : Node × MapGraph),
        (nav fm fn m.2.mapId m.1.id).success = true →
          matchDistance nav fm fn m =
            ((nav fm fn m.2.mapId m.1.id).totalNodes : WithTop Nat))
    ∧ (∀ nav fmo fno maps c,
        fmo = none ∨ fno = none ∨ (allCategoryMatches maps c).length ≤ 1 →
          findNearestNodeByCategory nav fmo fno maps c = (allCategoryMatches maps c).head?)
    ∧ (∀ nav nav2 fmo fno maps c,
        (∀ a b d e, (nav a b d e).success = (nav2 a b d e).success ∧
            (nav a b d e).totalNodes = (nav2 a b d e).totalNodes) →
          findNearestNodeByCategory nav fmo fno maps c =
            findNearestNodeByCategory nav2 fmo fno maps c)
    ∧ (∀ nav fp tp, ((nav fp.1 fp.2 tp.1 tp.2).success = false →
          calculateDistance nav fp tp = none) ∧
        ((nav fp.1 fp.2 tp.1 tp.2).success = true →
          calculateDistance nav fp tp = some (nav fp.1 fp.2 tp.1 tp.2).totalNodes)) := by
  refine ⟨?_, ?_, ?_, ?_, ?_, ?_⟩
  · intro nav fm fn maps c hlen
    cases hm : allCategoryMatches maps c with
    | nil => rw [hm] at hlen; simp at hlen
    | cons a tl =>
      cases tl with
      | nil => rw [hm] at hlen; simp at hlen
      | cons b rest =>
        simp only [findNearestNodeByCategory, hm]
        rw [head?_sortPairs, firstMinBy_map_pair]
        cases hf : firstMinBy (matchDistance nav fm fn) (a :: b :: rest) with
        | none => rfl
        | some y => rfl
  · intro nav fm fn m h
    simp [matchDistance, h]
  · intro nav fm fn m h
    simp [matchDistance, h]
  · intro nav fmo fno maps c hcase
    cases hm : allCategoryMatches maps c with
    | nil => simp only [findNearestNodeByCategory, hm]; rfl
    | cons a tl =>
      cases tl with
      | nil => simp only [findNearestNodeByCategory, hm]; rfl
      | cons b rest =>
        rcases hcase with h | h | h
        · subst h
          simp only [findNearestNodeByCategory, hm]
        · subst h
          simp only [findNearestNodeByCategory, hm]
        · rw [hm] at h; simp at h
  · intro nav nav2 fmo fno maps c hagree
    have hmd : ∀ fm fn (m : Node × MapGraph),
        matchDistance nav fm fn m = matchDistance nav2 fm fn m := by
      intro fm fn m
      simp only [matchDistance]
      rw [(hagree fm fn m.2.mapId m.1.id).1, (hagree fm fn m.2.mapId m.1.id).2]
    cases hm : allCategoryMatches maps c with
    | nil => simp only [findNearestNodeByCategory, hm]
    | cons a tl =>
      cases tl with
      | nil => simp only [findNearestNodeByCategory, hm]
      | cons b rest =>
        cases fmo with
        | none => simp only [findNearestNodeByCategory, hm]
        | some fm =>
          cases fno with
          | none => simp only [findNearestNodeByCategory, hm]
          | some fn =>
            simp only [findNearestNodeByCategory, hm]
            have hmap : (a :: b :: rest).map (fun m => (m, matchDistance nav fm fn m)) =
                (a :: b :: rest).map (fun m => (m, matchDistance nav2 fm fn m)) :=
              List.map_congr_left (fun m _ => by rw [hmd])
            rw [hmap]
  · intro nav fp tp
    constructor
    · intro h; simp [calculateDistance, h]
    · intro h; simp [calculateDistance, h]

/-- C9 witness: on the two-canteen fixture building with a selected start, the
chatbot's nearest-by-category lookup equals the first minimiser of the
totalNodes-based distance. -/
theorem nearest_by_totalNodes_witness :
    2 ≤ (allCategoryMatches [exBuildingA2] "canteen").length ∧
    findNearestNodeByCategory (fun _ _ _ _ => emptyPathResult) (some "building_a")
        (some "lobby") [exBuildingA2] "canteen" =
      firstMinBy (matchDistance (fun _ _ _ _ => emptyPathResult) "building_a" "lobby")
        (allCategoryMatches [exBuildingA2] "canteen") :=
  ⟨by decide, nearest_by_totalNodes.1 (fun _ _ _ _ => emptyPathResult) "building_a" "lobby"
    [exBuildingA2] "canteen" (by decide)⟩

/-- C10: every POST /api/chat response carries an intent that is either one of
the fixed validCategories keys or "unknown"; missing/non-string bodies give
unknown with score 0 (status 400 for a bad text field, 500 when parsing
throws), whitespace-only text gives unknown/0/400, an internal error during
the model call gives unknown/0/500, a cleaned model output outside the
category list gives unknown/0 with status 200, a valid cleaned output is
returned as the intent with score 0.95, and any non-"unknown" intent has
score 0.95. -/
theorem chatPOST_spec (body : Option (Option String)) (mo : Option String) :
    ((chatPOST body mo).intent ∈ validCategories ∨ (chatPOST body mo).intent = "unknown")
    ∧ chatPOST none mo = { intent := "unknown", score := 0, status := 500 }
    ∧ chatPOST (some none) mo = { intent := "unknown", score := 0, status := 400 }
    ∧ (∀ t, jsTrim t = "" →
        chatPOST (some (some t)) mo = { intent := "unknown", score := 0, status := 400 })
    ∧ (∀ t, jsTrim t ≠ "" →
        chatPOST (some (some t)) none = { intent := "unknown", score := 0, status := 500 })
    ∧ (∀ t raw, jsTrim t ≠ "" → cleanIntent raw ∉ validCategories →
        chatPOST (some (some t)) (some raw) =
          { intent := "unknown", score := 0, status := 200 })
    ∧ (∀ t raw, jsTrim t ≠ "" → cleanIntent raw ∈ validCategories →
        chatPOST (some (some t)) (some raw) =
          { intent := cleanIntent raw, score := 95 / 100, status := 200 })
    ∧ ((chatPOST body mo).intent ≠ "unknown" → (chatPOST body mo).score = 95 / 100) := by
  have hunk : "unknown" ∉ validCategories := by decide
  refine ⟨?_, rfl, rfl, ?_, ?_, ?_, ?_, ?_⟩
  · cases body with
    | none => right; rfl
    | some ob =>
      cases ob with
      | none => right; rfl
      | some t =>
        by_cases h : jsTrim t = ""
        · right; simp [chatPOST, h]
        · cases mo with
          | none => right; simp [chatPOST, h]
          | some raw =>
            by_cases hc : cleanIntent raw ∈ validCategories
            · left; simp [chatPOST, h, hc]
            · right; simp [chatPOST, h, hc]
  · intro t ht; simp [chatPOST, ht]
  · intro t ht; simp [chatPOST, ht]
  · intro t raw ht hc
    simp [chatPOST, ht, hc]
  · intro t raw ht hc
    have hne : cleanIntent raw ≠ "unknown" := fun he => hunk (he ▸ hc)
    simp [chatPOST, ht, hc, hne]
  · intro hne
    cases body with
    | none => exact absurd rfl hne
    | some ob =>
      cases ob with
      | none => exact absurd rfl hne
      | some t =>
        by_cases h : jsTrim t = ""
        · simp [chatPOST, h] at hne
        · cases mo with
          | none => simp [chatPOST, h] at hne
          | some raw =>
            by_cases hc : cleanIntent raw ∈ validCategories
            · have hne2 : cleanIntent raw ≠ "unknown" := fun he => hunk (he ▸ hc)
              simp [chatPOST, h, hc, hne2]
            · simp [chatPOST, h, hc] at hne

/-- C10 witness: a concrete request whose model output cleans to "canteen" is
answered with intent "canteen", score 0.95, status 200. -/
theorem chatPOST_spec_witness :
    chatPOST (some (some " where is the canteen ")) (some " CanTeen ") =
      { intent := "canteen", score := 95 / 100, status := 200 } := by
  have h := (chatPOST_spec (some (some " where is the canteen "))
      (some " CanTeen ")).2.2.2.2.2.2.1 " where is the canteen " " CanTeen "
      (by decide) (by decide)
  have he : cleanIntent " CanTeen " = "canteen" := by decide
  rw [he] at h
  exact h

end NavX
